import Mathlib

/-!
Shallow embedding of `src/delpathopt.cpp` (class `DeliveryPathOptimizer`).

The C++ state is
  - `unordered_map<string,int> locationToIndex`  (modelled as an association
    list with unique keys; since the hash map's iteration order is not
    observable, the association list stores entries in insertion order and
    `operator[]` on a fresh key is an append),
  - `vector<string> indexToLocation`,
  - `vector<vector<pair<int,int>>> adjList`,
  - `int locationCount`.
Costs and distances are C++ `int`; modelled as `Int` with the
`numeric_limits<int>::max()` sentinel `INTMAX`.  The interactive `main` menu
is out of scope; each member function becomes a pure function returning the
new state together with the error it would report.
-/

namespace DelPathOpt

inductive Err where
  | duplicateLocation
  | locationNotFound
deriving Repr, DecidableEq

structure Graph where
  locationToIndex : List (String × Nat)
  indexToLocation : List String
  adjList : List (List (Nat × Int))
  locationCount : Nat
deriving Repr, DecidableEq

def emptyGraph : Graph :=
  { locationToIndex := [], indexToLocation := [], adjList := [], locationCount := 0 }

/-- `locationToIndex.count(name)` / `locationToIndex[name]` lookup. -/
def lookupLoc (m : List (String × Nat)) (name : String) : Option Nat :=
  match m.find? (fun p => p.1 == name) with
  | some p => some p.2
  | none => none

/-- The map rebuilt by `removeLocation`'s loop
`for i: locationToIndex[indexToLocation[i]] = i`: one entry per list position.
(For the unique names arising in reachable states this is exactly the
contents of the rebuilt hash map.) -/
def canonMapFrom (i : Nat) : List String → List (String × Nat)
  | [] => []
  | name :: rest => (name, i) :: canonMapFrom (i + 1) rest

def canonMap (l : List String) : List (String × Nat) :=
  canonMapFrom 0 l

/-- `DeliveryPathOptimizer::addLocation`. -/
def addLocation (g : Graph) (name : String) : Graph × Option Err :=
  if (lookupLoc g.locationToIndex name).isSome then
    (g, some Err.duplicateLocation)
  else
    ({ locationToIndex := g.locationToIndex ++ [(name, g.locationCount)],
       indexToLocation := g.indexToLocation ++ [name],
       adjList := g.adjList ++ [[]],
       locationCount := g.locationCount + 1 }, none)

/-- the index adjustment `if (p.first > idx) p.first--` -/
def shiftEntry (idx : Nat) (p : Nat × Int) : Nat × Int :=
  if p.1 > idx then (p.1 - 1, p.2) else p

/-- `DeliveryPathOptimizer::removeLocation`. -/
def removeLocation (g : Graph) (name : String) : Graph × Option Err :=
  match lookupLoc g.locationToIndex name with
  | none => (g, some Err.locationNotFound)
  | some idx =>
    let adj1 := g.adjList.eraseIdx idx
    let names1 := g.indexToLocation.eraseIdx idx
    let adj2 := adj1.map (fun row =>
      (row.filter (fun p => p.1 != idx)).map (shiftEntry idx))
    ({ locationToIndex := canonMap names1,
       indexToLocation := names1,
       adjList := adj2,
       locationCount := g.locationCount - 1 }, none)

/-- `DeliveryPathOptimizer::addRoute`. -/
def addRoute (g : Graph) (frm t : String) (cost : Int) : Graph × Option Err :=
  match lookupLoc g.locationToIndex frm, lookupLoc g.locationToIndex t with
  | some u, some v =>
    let adj1 := g.adjList.set u ((g.adjList.getD u []) ++ [(v, cost)])
    let adj2 := adj1.set v ((adj1.getD v []) ++ [(u, cost)])
    ({ g with adjList := adj2 }, none)
  | _, _ => (g, some Err.locationNotFound)

/-- `DeliveryPathOptimizer::removeRoute`. -/
def removeRoute (g : Graph) (frm t : String) : Graph × Option Err :=
  match lookupLoc g.locationToIndex frm, lookupLoc g.locationToIndex t with
  | some u, some v =>
    let adj1 := g.adjList.set u ((g.adjList.getD u []).filter (fun p => p.1 != v))
    let adj2 := adj1.set v ((adj1.getD v []).filter (fun p => p.1 != u))
    ({ g with adjList := adj2 }, none)
  | _, _ => (g, some Err.locationNotFound)

/-- A mutation of the graph, for quantifying over call sequences. -/
inductive Op where
  | addLoc (name : String)
  | removeLoc (name : String)
  | addRte (frm t : String) (cost : Int)
  | removeRte (frm t : String)
deriving Repr, DecidableEq

def applyOp (g : Graph) : Op → Graph
  | Op.addLoc name => (addLocation g name).1
  | Op.removeLoc name => (removeLocation g name).1
  | Op.addRte frm t cost => (addRoute g frm t cost).1
  | Op.removeRte frm t => (removeRoute g frm t).1

def runOps (ops : List Op) : Graph :=
  ops.foldl applyOp emptyGraph

/-! ## Dijkstra (`optimizeDeliveryPlan`) -/

/-- `numeric_limits<int>::max()` -/
def INTMAX : Int := 2147483647

/-- The strict weak order of
`priority_queue<pair<int,int>, vector<pair<int,int>>, greater<pair<int,int>>>`:
lexicographic on (distance, vertex index); the top of the min-heap is the
least pair under this order. -/
def pqLe (a b : Int × Nat) : Bool :=
  decide (a.1 < b.1 ∨ (a.1 = b.1 ∧ a.2 ≤ b.2))

/-- One comparison step when scanning the frontier for its least element. -/
def pqStep (acc : Option (Int × Nat)) (x : Int × Nat) : Option (Int × Nat) :=
  match acc with
  | none => some x
  | some b => if pqLe b x then some b else some x

/-- Least element of the frontier multiset (the heap's `top()`). -/
def pqMinFold (l : List (Int × Nat)) : Option (Int × Nat) :=
  l.foldl pqStep none

/-- Remove one occurrence of a value from the frontier multiset. -/
def eraseFirst : List (Int × Nat) → (Int × Nat) → List (Int × Nat)
  | [], _ => []
  | x :: rest, m => if x = m then rest else x :: eraseFirst rest m

/-- `top(); pop()` on the frontier: the minimum and the multiset less one
occurrence of it. -/
def popMin (l : List (Int × Nat)) : Option ((Int × Nat) × List (Int × Nat)) :=
  match pqMinFold l with
  | none => none
  | some m => some (m, eraseFirst l m)

/-- The neighbor loop of `optimizeDeliveryPlan`:
`if (dist[v] > dist[u] + cost) { dist[v] = dist[u] + cost; pq.push({dist[v], v}); }`
(`dist[u]` is re-read on every iteration, as in the source). -/
def relaxList (u : Nat) :
    List (Nat × Int) → List Int × List (Int × Nat) → List Int × List (Int × Nat)
  | [], s => s
  | e :: rest, (dist, pq) =>
    if dist.getD e.1 0 > dist.getD u 0 + e.2 then
      relaxList u rest
        (dist.set e.1 (dist.getD u 0 + e.2), pq ++ [(dist.getD u 0 + e.2, e.1)])
    else
      relaxList u rest (dist, pq)

/-- The `while (!pq.empty())` loop, fuel-indexed.  Every property proved about
it holds for every fuel value, and the fuel passed by `optimizeDeliveryPlan`
empties the queue on the concrete runs considered. -/
def dijkstraLoop (adj : List (List (Nat × Int))) :
    Nat → List Int → List (Int × Nat) → List Int
  | 0, dist, _ => dist
  | fuel + 1, dist, pq =>
    match popMin pq with
    | none => dist
    | some (top, pq') =>
      if top.1 > dist.getD top.2 0 then
        dijkstraLoop adj fuel dist pq'
      else
        let s := relaxList top.2 (adj.getD top.2 []) (dist, pq')
        dijkstraLoop adj fuel s.1 s.2

/-- One output line of the delivery plan: `Unreachable` or
`ETA = d, Cost = d*5`. -/
inductive PlanEntry where
  | unreachable
  | eta (d : Int) (cost : Int)
deriving Repr, DecidableEq

def totalAdjEntries (g : Graph) : Nat :=
  (g.adjList.map List.length).sum

def dijkstraFuel (g : Graph) : Nat :=
  (g.locationCount + 1) * (totalAdjEntries g + 1) + 1

/-- `DeliveryPathOptimizer::optimizeDeliveryPlan`: `none` models the
`Starting location not found.` error; otherwise the printed report, one entry
per location in index order. -/
def optimizeDeliveryPlan (g : Graph) (start : String) :
    Option (List (String × PlanEntry)) :=
  match lookupLoc g.locationToIndex start with
  | none => none
  | some src =>
    let n := g.locationCount
    let dist0 := (List.replicate n INTMAX).set src 0
    let dist := dijkstraLoop g.adjList (dijkstraFuel g) dist0 [(0, src)]
    some ((List.range n).map (fun i =>
      (g.indexToLocation.getD i "",
        if dist.getD i 0 = INTMAX then PlanEntry.unreachable
        else PlanEntry.eta (dist.getD i 0) (dist.getD i 0 * 5))))

/-! ## BFS (`simulateDelivery`) -/

/-- The neighbor loop of `simulateDelivery`: mark-and-enqueue each
not-yet-visited target, in adjacency-list order. -/
def bfsScanRow : List (Nat × Int) → List Bool × List Nat → List Bool × List Nat
  | [], s => s
  | e :: rest, (vis, q) =>
    if vis.getD e.1 false then bfsScanRow rest (vis, q)
    else bfsScanRow rest (vis.set e.1 true, q ++ [e.1])

/-- The `while (!q.empty())` loop; the popped index is appended to the
visitation order. -/
def bfsLoop (adj : List (List (Nat × Int))) :
    Nat → List Nat → List Bool → List Nat → List Nat
  | 0, _, _, out => out
  | fuel + 1, q, vis, out =>
    match q with
    | [] => out
    | curr :: q' =>
      let s := bfsScanRow (adj.getD curr []) (vis, q')
      bfsLoop adj fuel s.2 s.1 (out ++ [curr])

/-- `DeliveryPathOptimizer::simulateDelivery`: `none` models the
`Starting location not found.` error; otherwise the sequence of location
names in the order they are printed. -/
def simulateDelivery (g : Graph) (start : String) : Option (List String) :=
  match lookupLoc g.locationToIndex start with
  | none => none
  | some src =>
    let vis0 := (List.replicate g.locationCount false).set src true
    let order := bfsLoop g.adjList (g.locationCount + 1) [src] vis0 []
    some (order.map (fun i => g.indexToLocation.getD i ""))

/-! ## Specification-level notions -/

/-- The multiset (as a list, order irrelevant up to `Perm`) of costs of the
adjacency entries of `u` targeting `v`. -/
def costsBetween (adj : List (List (Nat × Int))) (u v : Nat) : List Int :=
  ((adj.getD u []).filter (fun e => e.1 == v)).map Prod.snd

/-- Reachability along adjacency entries (the connected component of `src`,
given that the store keeps edges symmetric). -/
inductive Reach (adj : List (List (Nat × Int))) (src : Nat) : Nat → Prop
  | refl : Reach adj src src
  | step {u v : Nat} {c : Int} :
      Reach adj src u → (v, c) ∈ adj.getD u [] → Reach adj src v

/-- The state invariant of reachable `DeliveryPathOptimizer` states: the map
is the canonical enumeration of the (duplicate-free) name list, the count and
the adjacency table agree with it, adjacency targets are in range, and the
edge multisets are symmetric. -/
def GraphInv (g : Graph) : Prop :=
  g.locationToIndex = canonMap g.indexToLocation ∧
  g.indexToLocation.Nodup ∧
  g.locationCount = g.indexToLocation.length ∧
  g.adjList.length = g.indexToLocation.length ∧
  (∀ row ∈ g.adjList, ∀ e ∈ row, e.1 < g.indexToLocation.length) ∧
  (∀ u < g.adjList.length, ∀ v < g.adjList.length,
    (costsBetween g.adjList u v).Perm (costsBetween g.adjList v u))

instance : DecidablePred GraphInv := fun g => by
  unfold GraphInv
  infer_instance

/-- The fixed example graph of the spec: locations A, B, C; routes A–B cost 1,
B–C cost 2, A–C cost 5. -/
def exampleGraph : Graph :=
  (addRoute (addRoute (addRoute
    (addLocation (addLocation (addLocation emptyGraph "A").1 "B").1 "C").1
    "A" "B" 1).1 "B" "C" 2).1 "A" "C" 5).1

/-! ## Lemmas about the name map -/

theorem canonMapFrom_append (i : Nat) (l₁ l₂ : List String) :
    canonMapFrom i (l₁ ++ l₂) = canonMapFrom i l₁ ++ canonMapFrom (i + l₁.length) l₂ := by
  induction l₁ generalizing i with
  | nil => simp [canonMapFrom]
  | cons a rest ih =>
    show (a, i) :: canonMapFrom (i + 1) (rest ++ l₂) =
      ((a, i) :: canonMapFrom (i + 1) rest) ++ canonMapFrom (i + (a :: rest).length) l₂
    rw [ih, List.cons_append]
    have h2 : i + (a :: rest).length = i + 1 + rest.length := by
      simp only [List.length_cons]
      omega
    rw [h2]

theorem lookupLoc_canonMapFrom_some {l : List String} {i k : Nat} {name : String}
    (h : lookupLoc (canonMapFrom i l) name = some k) :
    ∃ j, k = i + j ∧ l[j]? = some name := by
  induction l generalizing i with
  | nil => simp [lookupLoc, canonMapFrom, List.find?] at h
  | cons a rest ih =>
    by_cases ha : a = name
    · subst ha
      simp [lookupLoc, canonMapFrom, List.find?] at h
      exact ⟨0, by omega, by simp⟩
    · have hne : (a == name) = false := by simp [ha]
      simp only [canonMapFrom, lookupLoc, List.find?, hne] at h
      obtain ⟨j, hj, hget⟩ := ih (i := i + 1) h
      exact ⟨j + 1, by omega, by simpa using hget⟩

theorem lookupLoc_canonMapFrom_of_get {l : List String} {j : Nat} {name : String}
    (hnd : l.Nodup) (hget : l[j]? = some name) (i : Nat) :
    lookupLoc (canonMapFrom i l) name = some (i + j) := by
  induction l generalizing i j with
  | nil => simp at hget
  | cons a rest ih =>
    have hna : a ∉ rest := (List.nodup_cons.mp hnd).1
    have hndr : rest.Nodup := (List.nodup_cons.mp hnd).2
    match j with
    | 0 =>
      simp at hget
      subst hget
      simp [lookupLoc, canonMapFrom, List.find?]
    | j' + 1 =>
      simp at hget
      have ha : a ≠ name := by
        intro he
        subst he
        exact hna (List.getElem?_mem hget)
      have hne : (a == name) = false := by simp [ha]
      simp only [canonMapFrom, lookupLoc, List.find?, hne]
      have := ih hndr hget (i + 1)
      simp only [lookupLoc] at this
      rw [this]
      congr 1
      omega

theorem lookupLoc_canonMapFrom_none {l : List String} {i : Nat} {name : String} :
    lookupLoc (canonMapFrom i l) name = none ↔ name ∉ l := by
  induction l generalizing i with
  | nil => simp [lookupLoc, canonMapFrom, List.find?]
  | cons a rest ih =>
    by_cases ha : a = name
    · subst ha
      simp [lookupLoc, canonMapFrom, List.find?]
    · have hne : (a == name) = false := by simp [ha]
      have step : lookupLoc (canonMapFrom i (a :: rest)) name =
          lookupLoc (canonMapFrom (i + 1) rest) name := by
        simp only [canonMapFrom, lookupLoc, List.find?, hne]
      rw [step, ih]
      constructor
      · intro h hmem
        rcases List.mem_cons.mp hmem with h1 | h2
        · exact ha h1.symm
        · exact h h2
      · intro h hmem
        exact h (List.mem_cons_of_mem _ hmem)

theorem lookupLoc_canonMap_some {l : List String} {k : Nat} {name : String}
    (h : lookupLoc (canonMap l) name = some k) :
    k < l.length ∧ l[k]? = some name := by
  obtain ⟨j, hk, hget⟩ := lookupLoc_canonMapFrom_some (i := 0) h
  have : j < l.length := by
    by_contra hge
    rw [List.getElem?_eq_none (by omega)] at hget
    exact Option.noConfusion hget
  exact ⟨by omega, by simpa [hk] using hget⟩

theorem lookupLoc_canonMap_of_get {l : List String} {j : Nat} {name : String}
    (hnd : l.Nodup) (hget : l[j]? = some name) :
    lookupLoc (canonMap l) name = some j := by
  simpa using lookupLoc_canonMapFrom_of_get hnd hget 0

theorem lookupLoc_canonMap_none {l : List String} {name : String} :
    lookupLoc (canonMap l) name = none ↔ name ∉ l :=
  lookupLoc_canonMapFrom_none

/-! ## Lemmas about adjacency rows and cost multisets -/

theorem getD_out_of_range {α : Type} (l : List α) (i : Nat) (d : α)
    (h : l.length ≤ i) : l.getD i d = d := by
  rw [List.getD_eq_getElem?_getD, List.getElem?_eq_none h]
  rfl

theorem getD_append_lt {α : Type} (l₁ l₂ : List α) (i : Nat) (d : α)
    (h : i < l₁.length) : (l₁ ++ l₂).getD i d = l₁.getD i d := by
  rw [List.getD_eq_getElem?_getD, List.getD_eq_getElem?_getD, List.getElem?_append, if_pos h]

theorem costsBetween_out_left (adj : List (List (Nat × Int))) (u v : Nat)
    (h : adj.length ≤ u) : costsBetween adj u v = [] := by
  unfold costsBetween
  rw [getD_out_of_range _ _ _ h]
  rfl

theorem costsBetween_target_big {n : Nat} (adj : List (List (Nat × Int))) (u v : Nat)
    (htgt : ∀ row ∈ adj, ∀ e ∈ row, e.1 < n) (h : n ≤ v) : costsBetween adj u v = [] := by
  unfold costsBetween
  rcases Nat.lt_or_ge u adj.length with hu | hu
  · have hrow : adj.getD u [] ∈ adj := by
      rw [List.getD_eq_getElem?_getD, List.getElem?_eq_getElem hu]
      exact List.getElem_mem hu
    have : (adj.getD u []).filter (fun e => e.1 == v) = [] := by
      rw [List.filter_eq_nil_iff]
      intro e he
      have := htgt _ hrow e he
      simp only [beq_iff_eq]
      omega
    rw [this]
    rfl
  · rw [getD_out_of_range _ _ _ hu]
    rfl

theorem costsBetween_append_nil (adj : List (List (Nat × Int))) (u v : Nat) :
    costsBetween (adj ++ [[]]) u v = costsBetween adj u v := by
  unfold costsBetween
  rcases Nat.lt_or_ge u adj.length with hu | hu
  · rw [getD_append_lt _ _ _ _ hu]
  · rcases Nat.lt_or_ge u (adj ++ [[]]).length with hu2 | hu2
    · have hlen : (adj ++ [[]]).length = adj.length + 1 := by simp
      have hueq : u = adj.length := by omega
      have : (adj ++ [[]]).getD u [] = [] := by
        rw [List.getD_eq_getElem?_getD, List.getElem?_append, if_neg (by omega), hueq]
        simp
      rw [this, getD_out_of_range _ _ _ hu]
    · rw [getD_out_of_range _ _ _ (by omega), getD_out_of_range _ _ _ hu]

/-! ## Preservation of the state invariant -/

theorem GraphInv_empty : GraphInv emptyGraph := by
  refine ⟨rfl, List.nodup_nil, rfl, rfl, ?_, ?_⟩
  · intro row hrow
    simp [emptyGraph] at hrow
  · intro u hu
    simp [emptyGraph] at hu

theorem GraphInv_addLocation (g : Graph) (name : String) (h : GraphInv g) :
    GraphInv (addLocation g name).1 := by
  obtain ⟨hmap, hnd, hcnt, hadj, htgt, hsym⟩ := h
  by_cases hl : (lookupLoc g.locationToIndex name).isSome
  · simp [addLocation, hl]
    exact ⟨hmap, hnd, hcnt, hadj, htgt, hsym⟩
  · have hnone : lookupLoc g.locationToIndex name = none := by
      cases hopt : lookupLoc g.locationToIndex name with
      | none => rfl
      | some k => rw [hopt] at hl; simp at hl
    have hnotmem : name ∉ g.indexToLocation := by
      rw [hmap] at hnone
      exact lookupLoc_canonMap_none.mp hnone
    have hres : (addLocation g name).1 =
        { locationToIndex := g.locationToIndex ++ [(name, g.locationCount)],
          indexToLocation := g.indexToLocation ++ [name],
          adjList := g.adjList ++ [[]],
          locationCount := g.locationCount + 1 } := by
      simp [addLocation, hnone]
    rw [hres]
    refine ⟨?_, ?_, ?_, ?_, ?_, ?_⟩
    · show g.locationToIndex ++ [(name, g.locationCount)] =
        canonMap (g.indexToLocation ++ [name])
      rw [hmap, hcnt]
      unfold canonMap
      rw [canonMapFrom_append, Nat.zero_add]
      rfl
    · show (g.indexToLocation ++ [name]).Nodup
      rw [List.nodup_append]
      refine ⟨hnd, List.nodup_singleton _, ?_⟩
      intro x hx hy
      simp only [List.mem_singleton] at hy
      subst hy
      exact hnotmem hx
    · show g.locationCount + 1 = (g.indexToLocation ++ [name]).length
      simp [hcnt]
    · show (g.adjList ++ [[]]).length = (g.indexToLocation ++ [name]).length
      simp [hadj]
    · intro row hrow e he
      rcases List.mem_append.mp hrow with h1 | h1
      · have := htgt row h1 e he
        simp only [List.length_append, List.length_cons, List.length_nil]
        omega
      · simp at h1
        subst h1
        simp at he
    · intro u hu v hv
      rw [costsBetween_append_nil, costsBetween_append_nil]
      simp only [List.length_append, List.length_cons, List.length_nil] at hu hv
      rcases Nat.lt_or_ge u g.adjList.length with hu1 | hu1
      · rcases Nat.lt_or_ge v g.adjList.length with hv1 | hv1
        · exact hsym u hu1 v hv1
        · rw [costsBetween_target_big (n := g.indexToLocation.length) _ u v htgt
            (by omega), costsBetween_out_left _ v u (by omega)]
      · rw [costsBetween_out_left _ u v (by omega),
          costsBetween_target_big (n := g.indexToLocation.length) _ v u htgt (by omega)]

theorem getD_set_self {α : Type} (l : List α) (i : Nat) (a d : α)
    (h : i < l.length) : (l.set i a).getD i d = a := by
  rw [List.getD_eq_getElem?_getD, List.getElem?_set_self h]
  rfl

theorem getD_set_ne {α : Type} (l : List α) (i j : Nat) (a d : α)
    (h : i ≠ j) : (l.set i a).getD j d = l.getD j d := by
  rw [List.getD_eq_getElem?_getD, List.getElem?_set_ne h, List.getD_eq_getElem?_getD]

/-- The two `push_back`s of `addRoute` change the cost multisets by appending
`cost` to the `u→v` and `v→u` entries and nothing else. -/
theorem costsBetween_addRoute (adj : List (List (Nat × Int))) (u v : Nat) (c : Int)
    (hu : u < adj.length) (hv : v < adj.length) (a b : Nat) :
    costsBetween
      ((adj.set u (adj.getD u [] ++ [(v, c)])).set v
        ((adj.set u (adj.getD u [] ++ [(v, c)])).getD v [] ++ [(u, c)])) a b =
    costsBetween adj a b ++
      ((if a = u ∧ b = v then [c] else []) ++ (if a = v ∧ b = u then [c] else [])) := by
  set adj2 := adj.set u (adj.getD u [] ++ [(v, c)]) with hadj2
  have hlen2 : adj2.length = adj.length := by rw [hadj2, List.length_set]
  unfold costsBetween
  by_cases hav : a = v
  · subst hav
    rw [getD_set_self _ _ _ _ (by omega)]
    by_cases hau : a = u
    · subst hau
      rw [hadj2, getD_set_self _ _ _ _ hu]
      simp only [List.filter_append, List.map_append]
      by_cases hb : b = a
      · subst hb
        simp [List.filter, List.map]
      · have h1 : ((a : Nat) == b) = false := by simp [Ne.symm hb]
        simp [List.filter, List.map, h1, fun h : b = a => hb h]
    · rw [hadj2, getD_set_ne _ _ _ _ _ (fun he => hau he.symm)]
      simp only [List.filter_append, List.map_append]
      by_cases hb : b = u
      · subst hb
        simp [List.filter, List.map, hau]
      · have h1 : ((u : Nat) == b) = false := by simp [Ne.symm hb]
        simp [List.filter, List.map, h1, hau, fun h : b = u => hb h]
  · by_cases hau : a = u
    · subst hau
      rw [getD_set_ne _ _ _ _ _ (Ne.symm hav), hadj2, getD_set_self _ _ _ _ hu]
      simp only [List.filter_append, List.map_append]
      by_cases hb : b = v
      · subst hb
        simp [List.filter, List.map, hav]
      · have h1 : ((v : Nat) == b) = false := by simp [Ne.symm hb]
        simp [List.filter, List.map, h1, hav, fun h : b = v => hb h]
    · rw [getD_set_ne _ _ _ _ _ (Ne.symm hav), hadj2,
        getD_set_ne _ _ _ _ _ (Ne.symm hau)]
      simp [hau, hav]

theorem GraphInv_addRoute (g : Graph) (frm t : String) (c : Int) (h : GraphInv g) :
    GraphInv (addRoute g frm t c).1 := by
  obtain ⟨hmap, hnd, hcnt, hadj, htgt, hsym⟩ := h
  cases hf : lookupLoc g.locationToIndex frm with
  | none => simpa [addRoute, hf] using ⟨hmap, hnd, hcnt, hadj, htgt, hsym⟩
  | some u =>
    cases ht : lookupLoc g.locationToIndex t with
    | none => simpa [addRoute, hf, ht] using ⟨hmap, hnd, hcnt, hadj, htgt, hsym⟩
    | some v =>
      have hu : u < g.indexToLocation.length := by
        rw [hmap] at hf
        exact (lookupLoc_canonMap_some hf).1
      have hv : v < g.indexToLocation.length := by
        rw [hmap] at ht
        exact (lookupLoc_canonMap_some ht).1
      have hL : (addRoute g frm t c).1.locationToIndex = g.locationToIndex := by
        simp [addRoute, hf, ht]
      have hI : (addRoute g frm t c).1.indexToLocation = g.indexToLocation := by
        simp [addRoute, hf, ht]
      have hC : (addRoute g frm t c).1.locationCount = g.locationCount := by
        simp [addRoute, hf, ht]
      have hA : (addRoute g frm t c).1.adjList =
          (g.adjList.set u (g.adjList.getD u [] ++ [(v, c)])).set v
            ((g.adjList.set u (g.adjList.getD u [] ++ [(v, c)])).getD v [] ++ [(u, c)]) := by
        simp [addRoute, hf, ht]
      unfold GraphInv
      rw [hL, hI, hC, hA]
      set adj2 := g.adjList.set u (g.adjList.getD u [] ++ [(v, c)]) with hadj2
      set adj3 := adj2.set v (adj2.getD v [] ++ [(u, c)]) with hadj3
      have hlen2 : adj2.length = g.adjList.length := by
        rw [hadj2, List.length_set]
      have hlen3 : adj3.length = g.adjList.length := by
        rw [hadj3, hadj2, List.length_set, List.length_set]
      refine ⟨hmap, hnd, hcnt, by simpa [hlen3] using hadj, ?_, ?_⟩
      · -- targets stay in range
        intro row hrow e he
        have hmem2 : ∀ r ∈ adj2, ∀ x ∈ r, x.1 < g.indexToLocation.length := by
          intro r hr x hx
          rcases List.mem_or_eq_of_mem_set hr with h1 | h1
          · exact htgt r h1 x hx
          · subst h1
            rcases List.mem_append.mp hx with h2 | h2
            · have hrowmem : g.adjList.getD u [] ∈ g.adjList := by
                rw [List.getD_eq_getElem?_getD,
                  List.getElem?_eq_getElem (by omega : u < g.adjList.length)]
                exact List.getElem_mem _
              exact htgt _ hrowmem x h2
            · simp at h2
              subst h2
              simpa using hv
        rcases List.mem_or_eq_of_mem_set hrow with h1 | h1
        · exact hmem2 row h1 e he
        · subst h1
          rcases List.mem_append.mp he with h2 | h2
          · have hrowmem : adj2.getD v [] ∈ adj2 := by
              rw [List.getD_eq_getElem?_getD,
                List.getElem?_eq_getElem (by omega : v < adj2.length)]
              exact List.getElem_mem _
            exact hmem2 _ hrowmem e h2
          · simp at h2
            subst h2
            simpa using hu
      · -- symmetry of the cost multisets
        intro a ha b hb
        rw [hlen3] at ha hb
        have key := costsBetween_addRoute g.adjList u v c (by omega) (by omega)
        rw [← hadj2] at key
        rw [key a b, key b a]
        have hperm : ((if a = u ∧ b = v then [c] else []) ++
            (if a = v ∧ b = u then [c] else [])).Perm
            ((if b = u ∧ a = v then [c] else []) ++ (if b = v ∧ a = u then [c] else [])) := by
          have e1 : (if a = u ∧ b = v then [c] else []) = (if b = v ∧ a = u then [c] else []) := by
            by_cases h1 : a = u ∧ b = v
            · rw [if_pos h1, if_pos ⟨h1.2, h1.1⟩]
            · rw [if_neg h1, if_neg (fun h2 => h1 ⟨h2.2, h2.1⟩)]
          have e2 : (if a = v ∧ b = u then [c] else []) = (if b = u ∧ a = v then [c] else []) := by
            by_cases h1 : a = v ∧ b = u
            · rw [if_pos h1, if_pos ⟨h1.2, h1.1⟩]
            · rw [if_neg h1, if_neg (fun h2 => h1 ⟨h2.2, h2.1⟩)]
          rw [e1, e2]
          exact List.perm_append_comm
        exact (hsym a (by omega) b (by omega)).append hperm

theorem filter_target_ne {row : List (Nat × Int)} {x b : Nat} (h : b ≠ x) :
    (row.filter (fun p => p.1 != x)).filter (fun p => p.1 == b) =
      row.filter (fun p => p.1 == b) := by
  rw [List.filter_filter]
  apply List.filter_congr
  intro p _
  by_cases hp : p.1 = b
  · simp [hp, h]
  · simp [hp]

theorem filter_target_self (row : List (Nat × Int)) (x : Nat) :
    (row.filter (fun p => p.1 != x)).filter (fun p => p.1 == x) = [] := by
  rw [List.filter_filter, List.filter_eq_nil_iff]
  intro p _
  by_cases hp : p.1 = x
  · simp [hp]
  · simp [hp]

/-- The two erase-remove steps of `removeRoute` empty the `u→v` and `v→u`
cost multisets and change nothing else. -/
theorem costsBetween_removeRoute (adj : List (List (Nat × Int))) (u v : Nat)
    (hu : u < adj.length) (hv : v < adj.length) (a b : Nat) :
    costsBetween
      ((adj.set u ((adj.getD u []).filter (fun p => p.1 != v))).set v
        (((adj.set u ((adj.getD u []).filter (fun p => p.1 != v))).getD v []).filter
          (fun p => p.1 != u))) a b =
    (if (a = u ∧ b = v) ∨ (a = v ∧ b = u) then [] else costsBetween adj a b) := by
  set adj1 := adj.set u ((adj.getD u []).filter (fun p => p.1 != v)) with hadj1
  unfold costsBetween
  by_cases hav : a = v
  · subst hav
    rw [getD_set_self _ _ _ _ (by rw [hadj1, List.length_set]; omega)]
    by_cases hau : a = u
    · subst hau
      rw [hadj1, getD_set_self _ _ _ _ hu]
      by_cases hb : b = a
      · subst hb
        rw [if_pos (Or.inl ⟨rfl, rfl⟩), filter_target_self]
        rfl
      · rw [if_neg (by intro h1; rcases h1 with h2 | h2; exact hb h2.2; exact hb h2.2),
          filter_target_ne hb, filter_target_ne (by intro h1; exact hb h1)]
    · rw [hadj1, getD_set_ne _ _ _ _ _ (fun he => hau he.symm)]
      by_cases hb : b = u
      · subst hb
        rw [if_pos (Or.inr ⟨rfl, rfl⟩), filter_target_self]
        rfl
      · rw [if_neg (by intro h1; rcases h1 with h2 | h2; exact hau h2.1; exact hb h2.2),
          filter_target_ne hb]
  · by_cases hau : a = u
    · subst hau
      rw [getD_set_ne _ _ _ _ _ (Ne.symm hav), hadj1, getD_set_self _ _ _ _ hu]
      by_cases hb : b = v
      · subst hb
        rw [if_pos (Or.inl ⟨rfl, rfl⟩), filter_target_self]
        rfl
      · rw [if_neg (by intro h1; rcases h1 with h2 | h2; exact hb h2.2; exact hav h2.1),
          filter_target_ne hb]
    · rw [getD_set_ne _ _ _ _ _ (Ne.symm hav), hadj1,
        getD_set_ne _ _ _ _ _ (Ne.symm hau),
        if_neg (by intro h1; rcases h1 with h2 | h2; exact hau h2.1; exact hav h2.1)]

theorem GraphInv_removeRoute (g : Graph) (frm t : String) (h : GraphInv g) :
    GraphInv (removeRoute g frm t).1 := by
  obtain ⟨hmap, hnd, hcnt, hadj, htgt, hsym⟩ := h
  cases hf : lookupLoc g.locationToIndex frm with
  | none => simpa [removeRoute, hf] using ⟨hmap, hnd, hcnt, hadj, htgt, hsym⟩
  | some u =>
    cases ht : lookupLoc g.locationToIndex t with
    | none => simpa [removeRoute, hf, ht] using ⟨hmap, hnd, hcnt, hadj, htgt, hsym⟩
    | some v =>
      have hu : u < g.indexToLocation.length := by
        rw [hmap] at hf
        exact (lookupLoc_canonMap_some hf).1
      have hv : v < g.indexToLocation.length := by
        rw [hmap] at ht
        exact (lookupLoc_canonMap_some ht).1
      have hL : (removeRoute g frm t).1.locationToIndex = g.locationToIndex := by
        simp [removeRoute, hf, ht]
      have hI : (removeRoute g frm t).1.indexToLocation = g.indexToLocation := by
        simp [removeRoute, hf, ht]
      have hC : (removeRoute g frm t).1.locationCount = g.locationCount := by
        simp [removeRoute, hf, ht]
      have hA : (removeRoute g frm t).1.adjList =
          (g.adjList.set u ((g.adjList.getD u []).filter (fun p => p.1 != v))).set v
            (((g.adjList.set u ((g.adjList.getD u []).filter (fun p => p.1 != v))).getD
              v []).filter (fun p => p.1 != u)) := by
        simp [removeRoute, hf, ht]
      unfold GraphInv
      rw [hL, hI, hC, hA]
      set adj1 := g.adjList.set u ((g.adjList.getD u []).filter (fun p => p.1 != v))
        with hadj1
      set adj2 := adj1.set v ((adj1.getD v []).filter (fun p => p.1 != u)) with hadj2
      have hlen1 : adj1.length = g.adjList.length := by rw [hadj1, List.length_set]
      have hlen2 : adj2.length = g.adjList.length := by
        rw [hadj2, List.length_set, hlen1]
      refine ⟨hmap, hnd, hcnt, by rw [hlen2]; exact hadj, ?_, ?_⟩
      · intro row hrow e he
        have hmem1 : ∀ r ∈ adj1, ∀ x ∈ r, x.1 < g.indexToLocation.length := by
          intro r hr x hx
          rcases List.mem_or_eq_of_mem_set hr with h1 | h1
          · exact htgt r h1 x hx
          · subst h1
            have hrowmem : g.adjList.getD u [] ∈ g.adjList := by
              rw [List.getD_eq_getElem?_getD,
                List.getElem?_eq_getElem (by omega : u < g.adjList.length)]
              exact List.getElem_mem _
            exact htgt _ hrowmem x (List.mem_of_mem_filter hx)
        rcases List.mem_or_eq_of_mem_set hrow with h1 | h1
        · exact hmem1 row h1 e he
        · subst h1
          have hrowmem : adj1.getD v [] ∈ adj1 := by
            rw [List.getD_eq_getElem?_getD,
              List.getElem?_eq_getElem (by omega : v < adj1.length)]
            exact List.getElem_mem _
          exact hmem1 _ hrowmem e (List.mem_of_mem_filter he)
      · intro a ha b hb
        rw [hlen2] at ha hb
        have key := costsBetween_removeRoute g.adjList u v (by omega) (by omega)
        rw [← hadj1, ← hadj2] at key
        rw [key a b, key b a]
        by_cases h1 : (a = u ∧ b = v) ∨ (a = v ∧ b = u)
        · rw [if_pos h1,
            if_pos (h1.elim (fun h2 => Or.inr ⟨h2.2, h2.1⟩) (fun h2 => Or.inl ⟨h2.2, h2.1⟩))]
        · rw [if_neg h1,
            if_neg (fun h2 => h1 (h2.elim (fun h3 => Or.inr ⟨h3.2, h3.1⟩)
              (fun h3 => Or.inl ⟨h3.2, h3.1⟩)))]
          exact hsym a (by omega) b (by omega)

/-- Inverse of the handle compaction of `removeLocation`: the old handle that
a surviving new handle `j` had before index `idx` was deleted. -/
def unshiftIdx (idx j : Nat) : Nat :=
  if j < idx then j else j + 1

theorem shift_filter_bool (idx b : Nat) (e : Nat × Int) :
    (((shiftEntry idx e).1 == b) && (e.1 != idx)) = (e.1 == unshiftIdx idx b) := by
  rw [Bool.eq_iff_iff]
  simp only [Bool.and_eq_true, beq_iff_eq, bne_iff_ne, shiftEntry, unshiftIdx]
  by_cases h1 : e.1 > idx
  · rw [if_pos h1]
    by_cases h2 : b < idx
    · rw [if_pos h2]
      simp only []
      omega
    · rw [if_neg h2]
      simp only []
      omega
  · rw [if_neg h1]
    by_cases h2 : b < idx
    · rw [if_pos h2]
      omega
    · rw [if_neg h2]
      omega

theorem shiftEntry_snd (idx : Nat) (e : Nat × Int) : (shiftEntry idx e).2 = e.2 := by
  unfold shiftEntry
  by_cases h : e.1 > idx
  · rw [if_pos h]
  · rw [if_neg h]

/-- Cost multiset of a compacted row, expressed over the original row. -/
theorem rowCosts_removeLoc (row : List (Nat × Int)) (idx b : Nat) :
    (((row.filter (fun p => p.1 != idx)).map (shiftEntry idx)).filter
        (fun e => e.1 == b)).map Prod.snd =
      (row.filter (fun e => e.1 == unshiftIdx idx b)).map Prod.snd := by
  rw [List.filter_map, List.map_map, List.filter_filter]
  have h1 : (fun a => ((fun e : Nat × Int => e.1 == b) ∘ shiftEntry idx) a &&
      (fun p : Nat × Int => p.1 != idx) a) = (fun e : Nat × Int => e.1 == unshiftIdx idx b) := by
    funext e
    exact shift_filter_bool idx b e
  rw [h1]
  apply List.map_congr_left
  intro e _
  exact shiftEntry_snd idx e

/-- Row access in the compacted adjacency table. -/
theorem row_removeLoc (adj : List (List (Nat × Int))) (idx : Nat)
    (hidx : idx < adj.length) (j : Nat) (hj : j < adj.length - 1) :
    ((adj.eraseIdx idx).map (fun row =>
        (row.filter (fun p => p.1 != idx)).map (shiftEntry idx))).getD j [] =
      ((adj.getD (unshiftIdx idx j) []).filter (fun p => p.1 != idx)).map
        (shiftEntry idx) := by
  rw [List.getD_eq_getElem?_getD, List.getElem?_map, List.getElem?_eraseIdx]
  unfold unshiftIdx
  by_cases h : j < idx
  · rw [if_pos h, if_pos h, List.getElem?_eq_getElem (by omega : j < adj.length)]
    simp [List.getD_eq_getElem?_getD, List.getElem?_eq_getElem (by omega : j < adj.length)]
  · rw [if_neg h, if_neg h, List.getElem?_eq_getElem (by omega : j + 1 < adj.length)]
    simp [List.getD_eq_getElem?_getD, List.getElem?_eq_getElem (by omega : j + 1 < adj.length)]

/-- Cost multisets after `removeLocation`'s compaction are the original cost
multisets at the uncompacted handles. -/
theorem costsBetween_removeLoc (adj : List (List (Nat × Int))) (idx : Nat)
    (hidx : idx < adj.length) (a b : Nat) (ha : a < adj.length - 1) :
    costsBetween ((adj.eraseIdx idx).map (fun row =>
        (row.filter (fun p => p.1 != idx)).map (shiftEntry idx))) a b =
      costsBetween adj (unshiftIdx idx a) (unshiftIdx idx b) := by
  unfold costsBetween
  rw [row_removeLoc adj idx hidx a ha, rowCosts_removeLoc]

theorem GraphInv_removeLocation (g : Graph) (name : String) (h : GraphInv g) :
    GraphInv (removeLocation g name).1 := by
  obtain ⟨hmap, hnd, hcnt, hadj, htgt, hsym⟩ := h
  cases hl : lookupLoc g.locationToIndex name with
  | none => simpa [removeLocation, hl] using ⟨hmap, hnd, hcnt, hadj, htgt, hsym⟩
  | some idx =>
    have hidx : idx < g.indexToLocation.length := by
      rw [hmap] at hl
      exact (lookupLoc_canonMap_some hl).1
    have hL : (removeLocation g name).1.locationToIndex =
        canonMap (g.indexToLocation.eraseIdx idx) := by
      simp [removeLocation, hl]
    have hI : (removeLocation g name).1.indexToLocation =
        g.indexToLocation.eraseIdx idx := by
      simp [removeLocation, hl]
    have hC : (removeLocation g name).1.locationCount = g.locationCount - 1 := by
      simp [removeLocation, hl]
    have hA : (removeLocation g name).1.adjList =
        (g.adjList.eraseIdx idx).map (fun row =>
          (row.filter (fun p => p.1 != idx)).map (shiftEntry idx)) := by
      simp [removeLocation, hl]
    unfold GraphInv
    rw [hL, hI, hC, hA]
    have hlen1 : (g.indexToLocation.eraseIdx idx).length = g.indexToLocation.length - 1 := by
      rw [List.length_eraseIdx, if_pos hidx]
    have hlenA : ((g.adjList.eraseIdx idx).map (fun row =>
        (row.filter (fun p => p.1 != idx)).map (shiftEntry idx))).length =
        g.adjList.length - 1 := by
      rw [List.length_map, List.length_eraseIdx, if_pos (by omega)]
    refine ⟨rfl, ?_, ?_, ?_, ?_, ?_⟩
    · exact List.Nodup.sublist (List.eraseIdx_sublist _ _) hnd
    · rw [hlen1]
      omega
    · rw [hlenA, hlen1, hadj]
    · intro row hrow e he
      rw [List.mem_map] at hrow
      obtain ⟨row0, hrow0, hT⟩ := hrow
      subst hT
      rw [List.mem_map] at he
      obtain ⟨e0, he0, hE⟩ := he
      subst hE
      have he0row : e0 ∈ row0 := List.mem_of_mem_filter he0
      have he0ne : e0.1 ≠ idx := by
        have := List.of_mem_filter he0
        simpa using this
      have hrow0mem : row0 ∈ g.adjList :=
        List.Sublist.mem hrow0 (List.eraseIdx_sublist _ _)
      have hbound := htgt row0 hrow0mem e0 he0row
      unfold shiftEntry
      by_cases hgt : e0.1 > idx
      · rw [if_pos hgt]
        simp only []
        omega
      · rw [if_neg hgt]
        omega
    · intro a ha b hb
      rw [hlenA] at ha hb
      rw [costsBetween_removeLoc g.adjList idx (by omega) a b (by omega),
        costsBetween_removeLoc g.adjList idx (by omega) b a (by omega)]
      have hua : unshiftIdx idx a < g.adjList.length := by
        unfold unshiftIdx
        by_cases h1 : a < idx
        · rw [if_pos h1]; omega
        · rw [if_neg h1]; omega
      have hub : unshiftIdx idx b < g.adjList.length := by
        unfold unshiftIdx
        by_cases h1 : b < idx
        · rw [if_pos h1]; omega
        · rw [if_neg h1]; omega
      exact hsym _ hua _ hub

/-- Every state reachable by a call sequence satisfies the invariant. -/
theorem GraphInv_applyOp (g : Graph) (op : Op) (h : GraphInv g) :
    GraphInv (applyOp g op) := by
  cases op with
  | addLoc name => exact GraphInv_addLocation g name h
  | removeLoc name => exact GraphInv_removeLocation g name h
  | addRte frm t cost => exact GraphInv_addRoute g frm t cost h
  | removeRte frm t => exact GraphInv_removeRoute g frm t h

theorem GraphInv_runOps (ops : List Op) : GraphInv (runOps ops) := by
  have key : ∀ (l : List Op) (g : Graph), GraphInv g → GraphInv (l.foldl applyOp g) := by
    intro l
    induction l with
    | nil => intro g hg; exact hg
    | cons op rest ih =>
      intro g hg
      exact ih (applyOp g op) (GraphInv_applyOp g op hg)
  exact key ops emptyGraph GraphInv_empty

end DelPathOpt

namespace DelPathOpt

/-- **C1.** On the graph with locations A, B, C and routes A–B cost 1,
B–C cost 2, A–C cost 5, the shortest-path query from A reports A at
distance 0, B at distance 1 and C at distance 3 (the path A→B→C beating the
direct cost-5 edge), each with derived cost `distance * 5`. -/
theorem dijkstra_example_correct :
    optimizeDeliveryPlan exampleGraph "A" =
      some [("A", PlanEntry.eta 0 (0 * 5)), ("B", PlanEntry.eta 1 (1 * 5)),
            ("C", PlanEntry.eta 3 (3 * 5))] := by
  decide

/-- **C2.** After any sequence of add/remove operations, the name→handle map
and the handle→name list are a bijection over the live locations: every
mapped name maps to a handle holding exactly that name, every live name is
mapped, and the assigned handles are exactly the range `[0, count)`. -/
theorem handle_bijection (ops : List Op) :
    (∀ name k, lookupLoc (runOps ops).locationToIndex name = some k →
      (runOps ops).indexToLocation[k]? = some name) ∧
    (∀ name, name ∈ (runOps ops).indexToLocation →
      lookupLoc (runOps ops).locationToIndex name ≠ none) ∧
    (∀ k, (∃ name, lookupLoc (runOps ops).locationToIndex name = some k) ↔
      k < (runOps ops).locationCount) := by
  obtain ⟨hmap, hnd, hcnt, _, _, _⟩ := GraphInv_runOps ops
  refine ⟨?_, ?_, ?_⟩
  · intro name k hk
    rw [hmap] at hk
    exact (lookupLoc_canonMap_some hk).2
  · intro name hmem hnone
    rw [hmap] at hnone
    exact lookupLoc_canonMap_none.mp hnone hmem
  · intro k
    constructor
    · intro ⟨name, hk⟩
      rw [hmap] at hk
      rw [hcnt]
      exact (lookupLoc_canonMap_some hk).1
    · intro hk
      rw [hcnt] at hk
      refine ⟨(runOps ops).indexToLocation[k], ?_⟩
      rw [hmap]
      exact lookupLoc_canonMap_of_get hnd (List.getElem?_eq_getElem hk)

/-- Closed instance of `handle_bijection`. -/
theorem handle_bijection_witness :
    (runOps [Op.addLoc "A", Op.addLoc "B", Op.removeLoc "A"]).indexToLocation[0]? =
      some "B" :=
  (handle_bijection [Op.addLoc "A", Op.addLoc "B", Op.removeLoc "A"]).1 "B" 0 (by decide)

/-- **C3.** After any sequence of mutations, the edge relation is symmetric:
for every pair of handles the multiset of costs of entries `u → v` equals
(as a multiset) the costs of entries `v → u`. -/
theorem edge_symmetry (ops : List Op) (u v : Nat) :
    (costsBetween (runOps ops).adjList u v).Perm
      (costsBetween (runOps ops).adjList v u) := by
  obtain ⟨_, _, _, hadj, htgt, hsym⟩ := GraphInv_runOps ops
  rcases Nat.lt_or_ge u (runOps ops).adjList.length with hu | hu
  · rcases Nat.lt_or_ge v (runOps ops).adjList.length with hv | hv
    · exact hsym u hu v hv
    · rw [costsBetween_target_big (n := (runOps ops).indexToLocation.length) _ u v htgt
        (by omega), costsBetween_out_left _ v u (by omega)]
  · rw [costsBetween_out_left _ u v (by omega),
      costsBetween_target_big (n := (runOps ops).indexToLocation.length) _ v u htgt
        (by omega)]

/-- **C4.** Removing the location at handle `k` from an `n`-location graph
yields an `(n-1)`-location graph, handles above `k` shift down by one,
handles below `k` are unchanged, and no adjacency entry of the new graph
references the removed location. -/
theorem removal_compaction (g : Graph) (name : String) (k : Nat)
    (hInv : GraphInv g) (hk : lookupLoc g.locationToIndex name = some k) :
    (removeLocation g name).1.locationCount + 1 = g.locationCount ∧
    (∀ name2 j, lookupLoc g.locationToIndex name2 = some j → j ≠ k →
      lookupLoc (removeLocation g name).1.locationToIndex name2 =
        some (if j < k then j else j - 1)) ∧
    (∀ row ∈ (removeLocation g name).1.adjList, ∀ e ∈ row,
      e.1 < (removeLocation g name).1.locationCount ∧
      (removeLocation g name).1.indexToLocation[e.1]? ≠ some name) := by
  obtain ⟨hmap, hnd, hcnt, hadj, htgt, hsym⟩ := hInv
  have hkl := hk
  rw [hmap] at hkl
  obtain ⟨hklt, hkget⟩ := lookupLoc_canonMap_some hkl
  have hL : (removeLocation g name).1.locationToIndex =
      canonMap (g.indexToLocation.eraseIdx k) := by
    simp [removeLocation, hk]
  have hI : (removeLocation g name).1.indexToLocation =
      g.indexToLocation.eraseIdx k := by
    simp [removeLocation, hk]
  have hC : (removeLocation g name).1.locationCount = g.locationCount - 1 := by
    simp [removeLocation, hk]
  have hnd1 : (g.indexToLocation.eraseIdx k).Nodup :=
    List.Nodup.sublist (List.eraseIdx_sublist _ _) hnd
  have hlen1 : (g.indexToLocation.eraseIdx k).length = g.indexToLocation.length - 1 := by
    rw [List.length_eraseIdx, if_pos hklt]
  refine ⟨?_, ?_, ?_⟩
  · rw [hC]
    omega
  · intro name2 j hj hjk
    rw [hmap] at hj
    obtain ⟨hjlt, hjget⟩ := lookupLoc_canonMap_some hj
    rw [hL]
    by_cases hlt : j < k
    · rw [if_pos hlt]
      apply lookupLoc_canonMap_of_get hnd1
      rw [List.getElem?_eraseIdx, if_pos hlt]
      exact hjget
    · rw [if_neg hlt]
      apply lookupLoc_canonMap_of_get hnd1
      rw [List.getElem?_eraseIdx, if_neg (by omega)]
      have : j - 1 + 1 = j := by omega
      rw [this]
      exact hjget
  · intro row hrow e he
    have hInv2 := GraphInv_removeLocation g name ⟨hmap, hnd, hcnt, hadj, htgt, hsym⟩
    obtain ⟨_, _, hcnt2, hadj2, htgt2, _⟩ := hInv2
    have hbound := htgt2 row hrow e he
    constructor
    · rw [hcnt2]
      exact hbound
    · rw [hI]
      intro hgetname
      rw [List.getElem?_eraseIdx] at hgetname
      by_cases hek : e.1 < k
      · rw [if_pos hek] at hgetname
        have h1 := lookupLoc_canonMap_of_get hnd hgetname
        rw [← hmap, hk] at h1
        have h2 : k = e.1 := by injection h1
        omega
      · rw [if_neg hek] at hgetname
        have h1 := lookupLoc_canonMap_of_get hnd hgetname
        rw [← hmap, hk] at h1
        have h2 : k = e.1 + 1 := by injection h1
        omega

/-- Closed instance of `removal_compaction`. -/
theorem removal_compaction_witness :
    (removeLocation (runOps [Op.addLoc "A", Op.addLoc "B", Op.addLoc "C",
      Op.addRte "A" "C" 4]) "B").1.locationCount + 1 =
      (runOps [Op.addLoc "A", Op.addLoc "B", Op.addLoc "C",
        Op.addRte "A" "C" 4]).locationCount :=
  (removal_compaction _ "B" 1
    (GraphInv_runOps [Op.addLoc "A", Op.addLoc "B", Op.addLoc "C", Op.addRte "A" "C" 4])
    (by decide)).1

end DelPathOpt

namespace DelPathOpt

theorem addRoute_locationToIndex (g : Graph) (a b : String) (c : Int) :
    (addRoute g a b c).1.locationToIndex = g.locationToIndex := by
  unfold addRoute
  cases ha : lookupLoc g.locationToIndex a with
  | none => rfl
  | some u =>
    cases hb : lookupLoc g.locationToIndex b with
    | none => rfl
    | some v => rfl

theorem addRoute_adjList_length (g : Graph) (a b : String) (c : Int) :
    (addRoute g a b c).1.adjList.length = g.adjList.length := by
  unfold addRoute
  cases ha : lookupLoc g.locationToIndex a with
  | none => rfl
  | some u =>
    cases hb : lookupLoc g.locationToIndex b with
    | none => rfl
    | some v => simp

/-- **C5.** A route from a location to itself is accepted (no error is
reported) and yields a self-loop entry — the location's own handle paired
with the cost — in that location's own adjacency list. -/
theorem self_route_allowed (g : Graph) (nm : String) (k : Nat) (c : Int)
    (hInv : GraphInv g) (hk : lookupLoc g.locationToIndex nm = some k) :
    (addRoute g nm nm c).2 = none ∧
    (k, c) ∈ (addRoute g nm nm c).1.adjList.getD k [] := by
  obtain ⟨hmap, _, _, hadj, _, _⟩ := hInv
  have hklt : k < g.adjList.length := by
    rw [hadj]
    rw [hmap] at hk
    exact (lookupLoc_canonMap_some hk).1
  have hA : (addRoute g nm nm c).1.adjList =
      (g.adjList.set k (g.adjList.getD k [] ++ [(k, c)])).set k
        ((g.adjList.set k (g.adjList.getD k [] ++ [(k, c)])).getD k [] ++ [(k, c)]) := by
    simp [addRoute, hk]
  refine ⟨by simp [addRoute, hk], ?_⟩
  rw [hA, getD_set_self _ _ _ _ (by rw [List.length_set]; exact hklt)]
  exact List.mem_append_right _ (by simp)

/-- Closed instance of `self_route_allowed`. -/
theorem self_route_allowed_witness :
    (addRoute exampleGraph "B" "B" 9).2 = none ∧
    (1, 9) ∈ (addRoute exampleGraph "B" "B" 9).1.adjList.getD 1 [] :=
  self_route_allowed exampleGraph "B" 1 9 (by decide) (by decide)

/-- **C6.** Adding the same route twice and then removing it once leaves no
adjacency entries between the two endpoints in either direction:
`removeRoute` removes all matching copies. -/
theorem remove_route_removes_all (g : Graph) (nu nv : String) (hu hv : Nat) (c : Int)
    (hInv : GraphInv g) (hku : lookupLoc g.locationToIndex nu = some hu)
    (hkv : lookupLoc g.locationToIndex nv = some hv) :
    costsBetween (removeRoute (addRoute (addRoute g nu nv c).1 nu nv c).1
      nu nv).1.adjList hu hv = [] ∧
    costsBetween (removeRoute (addRoute (addRoute g nu nv c).1 nu nv c).1
      nu nv).1.adjList hv hu = [] := by
  obtain ⟨hmap, _, _, hadj, _, _⟩ := hInv
  set g2 := (addRoute (addRoute g nu nv c).1 nu nv c).1 with hg2
  have hmap2 : g2.locationToIndex = g.locationToIndex := by
    rw [hg2, addRoute_locationToIndex, addRoute_locationToIndex]
  have hku2 : lookupLoc g2.locationToIndex nu = some hu := by rw [hmap2]; exact hku
  have hkv2 : lookupLoc g2.locationToIndex nv = some hv := by rw [hmap2]; exact hkv
  have hlen2 : g2.adjList.length = g.adjList.length := by
    rw [hg2, addRoute_adjList_length, addRoute_adjList_length]
  have hult : hu < g2.adjList.length := by
    rw [hlen2, hadj]
    rw [hmap] at hku
    exact (lookupLoc_canonMap_some hku).1
  have hvlt : hv < g2.adjList.length := by
    rw [hlen2, hadj]
    rw [hmap] at hkv
    exact (lookupLoc_canonMap_some hkv).1
  have hA : (removeRoute g2 nu nv).1.adjList =
      (g2.adjList.set hu ((g2.adjList.getD hu []).filter (fun p => p.1 != hv))).set hv
        (((g2.adjList.set hu ((g2.adjList.getD hu []).filter
          (fun p => p.1 != hv))).getD hv []).filter (fun p => p.1 != hu)) := by
    simp [removeRoute, hku2, hkv2]
  rw [hA]
  constructor
  · rw [costsBetween_removeRoute g2.adjList hu hv hult hvlt hu hv,
      if_pos (Or.inl ⟨rfl, rfl⟩)]
  · rw [costsBetween_removeRoute g2.adjList hu hv hult hvlt hv hu,
      if_pos (Or.inr ⟨rfl, rfl⟩)]

/-- Closed instance of `remove_route_removes_all`. -/
theorem remove_route_removes_all_witness :
    costsBetween (removeRoute (addRoute (addRoute exampleGraph "A" "C" 9).1
      "A" "C" 9).1 "A" "C").1.adjList 0 2 = [] :=
  (remove_route_removes_all exampleGraph "A" "C" 0 2 9 (by decide) (by decide)
    (by decide)).1

/-- **C9.** Every reported error leaves the graph unchanged: a duplicate
`addLocation` and a `removeLocation` / `addRoute` / `removeRoute` /
`optimizeDeliveryPlan` / `simulateDelivery` with an unknown endpoint are
complete no-ops that only report the error. -/
theorem error_atomicity :
    (∀ (g : Graph) (nm : String), (lookupLoc g.locationToIndex nm).isSome = true →
      addLocation g nm = (g, some Err.duplicateLocation)) ∧
    (∀ (g : Graph) (nm : String), lookupLoc g.locationToIndex nm = none →
      removeLocation g nm = (g, some Err.locationNotFound)) ∧
    (∀ (g : Graph) (a b : String) (c : Int),
      lookupLoc g.locationToIndex a = none ∨ lookupLoc g.locationToIndex b = none →
      addRoute g a b c = (g, some Err.locationNotFound)) ∧
    (∀ (g : Graph) (a b : String),
      lookupLoc g.locationToIndex a = none ∨ lookupLoc g.locationToIndex b = none →
      removeRoute g a b = (g, some Err.locationNotFound)) ∧
    (∀ (g : Graph) (s : String), lookupLoc g.locationToIndex s = none →
      optimizeDeliveryPlan g s = none) ∧
    (∀ (g : Graph) (s : String), lookupLoc g.locationToIndex s = none →
      simulateDelivery g s = none) := by
  refine ⟨?_, ?_, ?_, ?_, ?_, ?_⟩
  · intro g nm h
    simp [addLocation, h]
  · intro g nm h
    simp [removeLocation, h]
  · intro g a b c h
    rcases h with h | h
    · simp [addRoute, h]
    · cases ha : lookupLoc g.locationToIndex a with
      | none => simp [addRoute, ha]
      | some u => simp [addRoute, ha, h]
  · intro g a b h
    rcases h with h | h
    · simp [removeRoute, h]
    · cases ha : lookupLoc g.locationToIndex a with
      | none => simp [removeRoute, ha]
      | some u => simp [removeRoute, ha, h]
  · intro g s h
    simp [optimizeDeliveryPlan, h]
  · intro g s h
    simp [simulateDelivery, h]

/-- Closed instance of `error_atomicity`. -/
theorem error_atomicity_witness :
    addLocation exampleGraph "A" = (exampleGraph, some Err.duplicateLocation) ∧
    removeRoute exampleGraph "A" "Z" = (exampleGraph, some Err.locationNotFound) ∧
    optimizeDeliveryPlan exampleGraph "Z" = none :=
  ⟨error_atomicity.1 exampleGraph "A" (by decide),
   error_atomicity.2.2.2.1 exampleGraph "A" "Z" (Or.inr (by decide)),
   error_atomicity.2.2.2.2.1 exampleGraph "Z" (by decide)⟩

end DelPathOpt

namespace DelPathOpt

/-! ## The frontier order is total, so ties are broken by handle -/

theorem pqLe_refl (a : Int × Nat) : pqLe a a = true := by
  simp [pqLe]

theorem pqLe_total (a b : Int × Nat) : pqLe a b = true ∨ pqLe b a = true := by
  simp only [pqLe, decide_eq_true_eq]
  omega

theorem pqLe_antisymm {a b : Int × Nat} (h1 : pqLe a b = true) (h2 : pqLe b a = true) :
    a = b := by
  simp only [pqLe, decide_eq_true_eq] at h1 h2
  rcases a with ⟨a1, a2⟩
  rcases b with ⟨b1, b2⟩
  simp only [Prod.mk.injEq]
  constructor
  · omega
  · omega

theorem pqLe_trans {a b c : Int × Nat} (h1 : pqLe a b = true) (h2 : pqLe b c = true) :
    pqLe a c = true := by
  simp only [pqLe, decide_eq_true_eq] at h1 h2 ⊢
  omega

/-- Binary minimum under the frontier order. -/
def pqMin2 (a b : Int × Nat) : Int × Nat :=
  if pqLe a b then a else b

theorem pqMin2_comm (a b : Int × Nat) : pqMin2 a b = pqMin2 b a := by
  unfold pqMin2
  by_cases h1 : pqLe a b = true
  · rw [if_pos h1]
    by_cases h2 : pqLe b a = true
    · rw [if_pos h2]
      exact pqLe_antisymm h1 h2
    · rw [if_neg h2]
  · rw [if_neg h1]
    rcases pqLe_total a b with h2 | h2
    · exact absurd h2 h1
    · rw [if_pos h2]

theorem pqMin2_assoc (a b c : Int × Nat) :
    pqMin2 (pqMin2 a b) c = pqMin2 a (pqMin2 b c) := by
  rcases a with ⟨a1, a2⟩
  rcases b with ⟨b1, b2⟩
  rcases c with ⟨c1, c2⟩
  unfold pqMin2
  split_ifs <;> simp only [pqLe, decide_eq_true_eq, Prod.mk.injEq] at * <;> omega

theorem pqStep_some (b x : Int × Nat) : pqStep (some b) x = some (pqMin2 b x) := by
  show (if pqLe b x then some b else some x) = some (pqMin2 b x)
  unfold pqMin2
  by_cases h : pqLe b x = true
  · rw [if_pos h, if_pos h]
  · rw [if_neg h, if_neg h]

instance : RightCommutative pqStep := by
  constructor
  intro acc x y
  cases acc with
  | none =>
    show pqStep (some x) y = pqStep (some y) x
    rw [pqStep_some, pqStep_some, pqMin2_comm]
  | some b =>
    rw [pqStep_some, pqStep_some, pqStep_some, pqStep_some,
      pqMin2_assoc, pqMin2_assoc, pqMin2_comm x y]

/-- The minimum of the frontier is permutation-invariant. -/
theorem pqMinFold_perm {l₁ l₂ : List (Int × Nat)} (h : l₁.Perm l₂) :
    pqMinFold l₁ = pqMinFold l₂ := by
  unfold pqMinFold
  exact h.foldl_eq none

/-- Removing one occurrence respects multiset equality of frontiers. -/
theorem eraseFirst_perm (m : Int × Nat) {l₁ l₂ : List (Int × Nat)} (h : l₁.Perm l₂) :
    (eraseFirst l₁ m).Perm (eraseFirst l₂ m) := by
  induction h with
  | nil => exact List.Perm.refl _
  | cons x hrest ih =>
    by_cases hx : x = m
    · simpa [eraseFirst, hx] using hrest
    · simpa [eraseFirst, hx] using ih.cons x
  | swap x y l =>
    by_cases hx : x = m
    · by_cases hy : y = m
      · subst hx
        subst hy
        simp [eraseFirst]
      · subst hx
        simp [eraseFirst, hy]
    · by_cases hy : y = m
      · subst hy
        simp [eraseFirst, hx]
      · simp [eraseFirst, hx, hy]
        exact List.Perm.swap x y (eraseFirst l m)
  | trans h1 h2 ih1 ih2 => exact ih1.trans ih2

end DelPathOpt

namespace DelPathOpt

/-- The relaxation pass: the distance updates do not depend on the frontier,
and the pushes are appended to whatever frontier is present. -/
theorem relaxList_decomp (u : Nat) (row : List (Nat × Int)) :
    ∀ (dist : List Int) (pq : List (Int × Nat)),
      relaxList u row (dist, pq) =
        ((relaxList u row (dist, [])).1, pq ++ (relaxList u row (dist, [])).2) := by
  induction row with
  | nil =>
    intro dist pq
    simp [relaxList]
  | cons e rest ih =>
    intro dist pq
    have hstep : ∀ (q : List (Int × Nat)), relaxList u (e :: rest) (dist, q) =
        if dist.getD e.1 0 > dist.getD u 0 + e.2 then
          relaxList u rest
            (dist.set e.1 (dist.getD u 0 + e.2), q ++ [(dist.getD u 0 + e.2, e.1)])
        else relaxList u rest (dist, q) := fun q => rfl
    by_cases hc : dist.getD e.1 0 > dist.getD u 0 + e.2
    · rw [hstep pq, hstep [], if_pos hc, if_pos hc,
        ih (dist.set e.1 (dist.getD u 0 + e.2)) (pq ++ [(dist.getD u 0 + e.2, e.1)]),
        ih (dist.set e.1 (dist.getD u 0 + e.2)) ([] ++ [(dist.getD u 0 + e.2, e.1)])]
      simp [List.append_assoc]
    · rw [hstep pq, hstep [], if_neg hc, if_neg hc, ih dist pq,
        ih dist ([] : List (Int × Nat))]

/-- The Dijkstra loop computes the same distances from any two frontiers that
hold the same entries (the internal arrangement of the heap is irrelevant;
ties are resolved by the `(distance, handle)` order, not by arrangement). -/
theorem dijkstraLoop_perm (adj : List (List (Nat × Int))) (fuel : Nat) :
    ∀ (dist : List Int) (pq₁ pq₂ : List (Int × Nat)), pq₁.Perm pq₂ →
      dijkstraLoop adj fuel dist pq₁ = dijkstraLoop adj fuel dist pq₂ := by
  induction fuel with
  | zero => intro dist pq₁ pq₂ _; rfl
  | succ fuel ih =>
    intro dist pq₁ pq₂ h
    have hsucc : ∀ (q : List (Int × Nat)), dijkstraLoop adj (fuel + 1) dist q =
        match popMin q with
        | none => dist
        | some (top, pq2) =>
          if top.1 > dist.getD top.2 0 then dijkstraLoop adj fuel dist pq2
          else
            dijkstraLoop adj fuel (relaxList top.2 (adj.getD top.2 []) (dist, pq2)).1
              (relaxList top.2 (adj.getD top.2 []) (dist, pq2)).2 := fun q => rfl
    rw [hsucc pq₁, hsucc pq₂]
    cases hm : pqMinFold pq₂ with
    | none =>
      have hpop1 : popMin pq₁ = none := by
        unfold popMin
        rw [pqMinFold_perm h, hm]
      have hpop2 : popMin pq₂ = none := by
        unfold popMin
        rw [hm]
      rw [hpop1, hpop2]
    | some m =>
      have hpop1 : popMin pq₁ = some (m, eraseFirst pq₁ m) := by
        unfold popMin
        rw [pqMinFold_perm h, hm]
      have hpop2 : popMin pq₂ = some (m, eraseFirst pq₂ m) := by
        unfold popMin
        rw [hm]
      rw [hpop1, hpop2]
      have hrest : (eraseFirst pq₁ m).Perm (eraseFirst pq₂ m) := eraseFirst_perm m h
      show (if m.1 > dist.getD m.2 0 then dijkstraLoop adj fuel dist (eraseFirst pq₁ m)
          else dijkstraLoop adj fuel
            (relaxList m.2 (adj.getD m.2 []) (dist, eraseFirst pq₁ m)).1
            (relaxList m.2 (adj.getD m.2 []) (dist, eraseFirst pq₁ m)).2) =
        (if m.1 > dist.getD m.2 0 then dijkstraLoop adj fuel dist (eraseFirst pq₂ m)
          else dijkstraLoop adj fuel
            (relaxList m.2 (adj.getD m.2 []) (dist, eraseFirst pq₂ m)).1
            (relaxList m.2 (adj.getD m.2 []) (dist, eraseFirst pq₂ m)).2)
      by_cases hskip : m.1 > dist.getD m.2 0
      · rw [if_pos hskip, if_pos hskip]
        exact ih dist _ _ hrest
      · rw [if_neg hskip, if_neg hskip,
          relaxList_decomp m.2 (adj.getD m.2 []) dist (eraseFirst pq₁ m),
          relaxList_decomp m.2 (adj.getD m.2 []) dist (eraseFirst pq₂ m)]
        exact ih _ _ _ (hrest.append_right _)

/-- `pqMinFold` returns an element of the frontier that is least in the
`(distance, handle)` lexicographic order. -/
theorem pqMinFold_spec :
    ∀ (l : List (Int × Nat)) (b m : Int × Nat), List.foldl pqStep (some b) l = some m →
      (m = b ∨ m ∈ l) ∧ pqLe m b = true ∧ ∀ x ∈ l, pqLe m x = true := by
  intro l
  induction l with
  | nil =>
    intro b m h
    simp only [List.foldl_nil] at h
    injection h with h
    subst h
    exact ⟨Or.inl rfl, pqLe_refl _, by intro x hx; simp at hx⟩
  | cons x rest ih =>
    intro b m h
    rw [List.foldl_cons, pqStep_some] at h
    obtain ⟨hmem, hle, hall⟩ := ih (pqMin2 b x) m h
    have hle_b : pqLe (pqMin2 b x) b = true := by
      unfold pqMin2
      by_cases h1 : pqLe b x = true
      · rw [if_pos h1]; exact pqLe_refl b
      · rw [if_neg h1]
        rcases pqLe_total b x with h2 | h2
        · exact absurd h2 h1
        · exact h2
    have hle_x : pqLe (pqMin2 b x) x = true := by
      unfold pqMin2
      by_cases h1 : pqLe b x = true
      · rw [if_pos h1]; exact h1
      · rw [if_neg h1]; exact pqLe_refl x
    refine ⟨?_, pqLe_trans hle hle_b, ?_⟩
    · rcases hmem with h1 | h1
      · subst h1
        unfold pqMin2
        by_cases h2 : pqLe b x = true
        · rw [if_pos h2]; exact Or.inl rfl
        · rw [if_neg h2]; exact Or.inr (List.mem_cons_self x rest)
      · exact Or.inr (List.mem_cons_of_mem x h1)
    · intro y hy
      rcases List.mem_cons.mp hy with h1 | h1
      · subst h1
        exact pqLe_trans hle hle_x
      · exact hall y h1

/-- **C10.** The shortest-path computation is deterministic across
equal-distance ties: the frontier pop always returns the least entry in the
lexicographic `(distance, vertex handle)` order, and the loop computes the
same distance array from any two frontiers holding the same entries, however
arranged. -/
theorem dijkstra_deterministic :
    (∀ (l : List (Int × Nat)) (m : Int × Nat) (r : List (Int × Nat)),
      popMin l = some (m, r) → m ∈ l ∧ ∀ x ∈ l, pqLe m x = true) ∧
    (∀ (adj : List (List (Nat × Int))) (fuel : Nat) (dist : List Int)
      (pq₁ pq₂ : List (Int × Nat)), pq₁.Perm pq₂ →
      dijkstraLoop adj fuel dist pq₁ = dijkstraLoop adj fuel dist pq₂) := by
  constructor
  · intro l m r h
    unfold popMin at h
    cases hm : pqMinFold l with
    | none => rw [hm] at h; exact Option.noConfusion h
    | some m0 =>
      rw [hm] at h
      injection h with h
      have hm0 : m0 = m := by
        have := congrArg Prod.fst h
        simpa using this
      subst hm0
      cases l with
      | nil => simp [pqMinFold] at hm
      | cons x rest =>
        have hm2 : List.foldl pqStep (some x) rest = some m0 := by
          simpa [pqMinFold, pqStep] using hm
        obtain ⟨hmem, hle, hall⟩ := pqMinFold_spec rest x m0 hm2
        constructor
        · rcases hmem with h1 | h1
          · subst h1; exact List.mem_cons_self _ _
          · exact List.mem_cons_of_mem _ h1
        · intro y hy
          rcases List.mem_cons.mp hy with h1 | h1
          · subst h1; exact hle
          · exact hall y h1
  · exact fun adj fuel dist pq₁ pq₂ h => dijkstraLoop_perm adj fuel dist pq₁ pq₂ h

/-- Closed instance of `dijkstra_deterministic`. -/
theorem dijkstra_deterministic_witness :
    (((0 : Int), (1 : Nat)) ∈ ([(3, 0), (0, 1)] : List (Int × Nat)) ∧
      ∀ x ∈ ([(3, 0), (0, 1)] : List (Int × Nat)), pqLe (0, 1) x = true) ∧
    dijkstraLoop exampleGraph.adjList 5 [0, INTMAX, INTMAX] [(1, 1), (0, 0)] =
      dijkstraLoop exampleGraph.adjList 5 [0, INTMAX, INTMAX] [(0, 0), (1, 1)] :=
  ⟨dijkstra_deterministic.1 [(3, 0), (0, 1)] (0, 1) [(3, 0)] (by decide),
   dijkstra_deterministic.2 exampleGraph.adjList 5 [0, INTMAX, INTMAX]
     [(1, 1), (0, 0)] [(0, 0), (1, 1)] (by decide)⟩

end DelPathOpt

namespace DelPathOpt

/-! ## Dijkstra reachability invariant (unreachable nodes keep the sentinel) -/

/-- Every stored distance is at most the `INT_MAX` sentinel. -/
def DistBounded (dist : List Int) : Prop :=
  ∀ (v : Nat) (x : Int), dist[v]? = some x → x ≤ INTMAX

/-- Every node whose stored distance is below the sentinel is reachable. -/
def DistReach (adj : List (List (Nat × Int))) (src : Nat) (dist : List Int) : Prop :=
  ∀ (v : Nat) (x : Int), dist[v]? = some x → x < INTMAX → Reach adj src v

theorem set_out_of_range {α : Type} (l : List α) (i : Nat) (a : α)
    (h : l.length ≤ i) : l.set i a = l := by
  induction l generalizing i with
  | nil => rfl
  | cons x rest ih =>
    match i with
    | 0 => simp at h
    | j + 1 =>
      show x :: rest.set j a = x :: rest
      rw [ih j (by simpa using h)]

theorem relaxList_length (u : Nat) (row : List (Nat × Int)) :
    ∀ (dist : List Int) (pq : List (Int × Nat)),
      (relaxList u row (dist, pq)).1.length = dist.length := by
  induction row with
  | nil => intro dist pq; rfl
  | cons e rest ih =>
    intro dist pq
    have hstep : relaxList u (e :: rest) (dist, pq) =
        if dist.getD e.1 0 > dist.getD u 0 + e.2 then
          relaxList u rest
            (dist.set e.1 (dist.getD u 0 + e.2), pq ++ [(dist.getD u 0 + e.2, e.1)])
        else relaxList u rest (dist, pq) := rfl
    rw [hstep]
    by_cases hc : dist.getD e.1 0 > dist.getD u 0 + e.2
    · rw [if_pos hc, ih]
      exact List.length_set dist e.1 _
    · rw [if_neg hc, ih]

theorem relaxList_inv (adj : List (List (Nat × Int))) (src u : Nat)
    (row : List (Nat × Int)) :
    ∀ (dist : List Int) (pq : List (Int × Nat)),
      (∀ e ∈ row, e ∈ adj.getD u []) →
      (∀ e ∈ row, 0 ≤ e.2) →
      DistBounded dist →
      DistReach adj src dist →
      (dist.getD u 0 < INTMAX → Reach adj src u) →
      DistBounded (relaxList u row (dist, pq)).1 ∧
        DistReach adj src (relaxList u row (dist, pq)).1 := by
  induction row with
  | nil =>
    intro dist pq _ _ hB hR _
    exact ⟨hB, hR⟩
  | cons e rest ih =>
    intro dist pq hrow hcost hB hR hu
    have hstep : relaxList u (e :: rest) (dist, pq) =
        if dist.getD e.1 0 > dist.getD u 0 + e.2 then
          relaxList u rest
            (dist.set e.1 (dist.getD u 0 + e.2), pq ++ [(dist.getD u 0 + e.2, e.1)])
        else relaxList u rest (dist, pq) := rfl
    rw [hstep]
    by_cases hc : dist.getD e.1 0 > dist.getD u 0 + e.2
    · rw [if_pos hc]
      by_cases hv : e.1 < dist.length
      · -- real update
        have hstored : dist[e.1]? = some (dist.getD e.1 0) := by
          rw [List.getD_eq_getElem?_getD, List.getElem?_eq_getElem hv]
          rfl
        have hub : dist.getD e.1 0 ≤ INTMAX := hB e.1 _ hstored
        have hxub : dist.getD u 0 + e.2 < INTMAX := by omega
        have hcostE : 0 ≤ e.2 := hcost e (List.mem_cons_self e rest)
        have hru : Reach adj src u := hu (by omega)
        have hrv : Reach adj src e.1 :=
          Reach.step hru (hrow e (List.mem_cons_self e rest))
        apply ih
        · intro e2 he2; exact hrow e2 (List.mem_cons_of_mem e he2)
        · intro e2 he2; exact hcost e2 (List.mem_cons_of_mem e he2)
        · intro v x hvx
          rw [List.getElem?_set] at hvx
          by_cases hev : e.1 = v
          · rw [if_pos hev, if_pos (hev ▸ hv)] at hvx
            injection hvx with hvx
            omega
          · rw [if_neg hev] at hvx
            exact hB v x hvx
        · intro v x hvx hlt
          rw [List.getElem?_set] at hvx
          by_cases hev : e.1 = v
          · exact hev ▸ hrv
          · rw [if_neg hev] at hvx
            exact hR v x hvx hlt
        · intro h2
          by_cases heu : e.1 = u
          · exact heu ▸ hrv
          · rw [getD_set_ne _ _ _ _ _ heu] at h2
            exact hu h2
      · -- out-of-range target: the write is a no-op
        rw [set_out_of_range dist e.1 _ (by omega)]
        apply ih
        · intro e2 he2; exact hrow e2 (List.mem_cons_of_mem e he2)
        · intro e2 he2; exact hcost e2 (List.mem_cons_of_mem e he2)
        · exact hB
        · exact hR
        · exact hu
    · rw [if_neg hc]
      apply ih
      · intro e2 he2; exact hrow e2 (List.mem_cons_of_mem e he2)
      · intro e2 he2; exact hcost e2 (List.mem_cons_of_mem e he2)
      · exact hB
      · exact hR
      · exact hu

end DelPathOpt

namespace DelPathOpt

theorem dijkstraLoop_inv (adj : List (List (Nat × Int))) (src : Nat)
    (hcost : ∀ row ∈ adj, ∀ e ∈ row, 0 ≤ e.2) (fuel : Nat) :
    ∀ (dist : List Int) (pq : List (Int × Nat)),
      dist.length = adj.length →
      DistBounded dist →
      DistReach adj src dist →
      (dijkstraLoop adj fuel dist pq).length = adj.length ∧
        DistBounded (dijkstraLoop adj fuel dist pq) ∧
        DistReach adj src (dijkstraLoop adj fuel dist pq) := by
  induction fuel with
  | zero =>
    intro dist pq hlen hB hR
    exact ⟨hlen, hB, hR⟩
  | succ fuel ih =>
    intro dist pq hlen hB hR
    have hsucc : dijkstraLoop adj (fuel + 1) dist pq =
        match popMin pq with
        | none => dist
        | some (top, pq2) =>
          if top.1 > dist.getD top.2 0 then dijkstraLoop adj fuel dist pq2
          else
            dijkstraLoop adj fuel (relaxList top.2 (adj.getD top.2 []) (dist, pq2)).1
              (relaxList top.2 (adj.getD top.2 []) (dist, pq2)).2 := rfl
    rw [hsucc]
    cases hpop : popMin pq with
    | none => exact ⟨hlen, hB, hR⟩
    | some p =>
      rcases p with ⟨top, pq2⟩
      show (if top.1 > dist.getD top.2 0 then dijkstraLoop adj fuel dist pq2
          else dijkstraLoop adj fuel
            (relaxList top.2 (adj.getD top.2 []) (dist, pq2)).1
            (relaxList top.2 (adj.getD top.2 []) (dist, pq2)).2).length = adj.length ∧
        DistBounded (if top.1 > dist.getD top.2 0 then dijkstraLoop adj fuel dist pq2
          else dijkstraLoop adj fuel
            (relaxList top.2 (adj.getD top.2 []) (dist, pq2)).1
            (relaxList top.2 (adj.getD top.2 []) (dist, pq2)).2) ∧
        DistReach adj src (if top.1 > dist.getD top.2 0 then dijkstraLoop adj fuel dist pq2
          else dijkstraLoop adj fuel
            (relaxList top.2 (adj.getD top.2 []) (dist, pq2)).1
            (relaxList top.2 (adj.getD top.2 []) (dist, pq2)).2)
      by_cases hskip : top.1 > dist.getD top.2 0
      · rw [if_pos hskip]
        exact ih dist pq2 hlen hB hR
      · rw [if_neg hskip]
        by_cases hun : top.2 < adj.length
        · have hu : dist.getD top.2 0 < INTMAX → Reach adj src top.2 := by
            intro hlt
            have hstored : dist[top.2]? = some (dist.getD top.2 0) := by
              rw [List.getD_eq_getElem?_getD,
                List.getElem?_eq_getElem (by omega : top.2 < dist.length)]
              rfl
            exact hR top.2 _ hstored hlt
          have hrowmem : adj.getD top.2 [] ∈ adj := by
            rw [List.getD_eq_getElem?_getD, List.getElem?_eq_getElem hun]
            exact List.getElem_mem _
          obtain ⟨hB2, hR2⟩ := relaxList_inv adj src top.2 (adj.getD top.2 []) dist pq2
            (fun e he => he) (fun e he => hcost _ hrowmem e he) hB hR hu
          have hlen2 : (relaxList top.2 (adj.getD top.2 []) (dist, pq2)).1.length =
              adj.length := by
            rw [relaxList_length]
            exact hlen
          exact ih _ _ hlen2 hB2 hR2
        · have hrow0 : adj.getD top.2 [] = [] :=
            getD_out_of_range adj top.2 [] (by omega)
          rw [hrow0]
          exact ih dist pq2 hlen hB hR

/-- A reached node is the source or the target of some adjacency entry. -/
theorem reach_cases {adj : List (List (Nat × Int))} {src v : Nat}
    (h : Reach adj src v) :
    v = src ∨ ∃ row ∈ adj, ∃ e ∈ row, e.1 = v := by
  cases h with
  | refl => exact Or.inl rfl
  | step hr hmem =>
    rename_i u c
    rcases Nat.lt_or_ge u adj.length with hu | hu
    · refine Or.inr ⟨adj.getD u [], ?_, (v, c), hmem, rfl⟩
      rw [List.getD_eq_getElem?_getD, List.getElem?_eq_getElem hu]
      exact List.getElem_mem _
    · rw [getD_out_of_range adj u [] hu] at hmem
      exact absurd hmem (List.not_mem_nil _)

/-- **C8.** If a location has no path from the source (all edge costs
non-negative), the shortest-path report lists it as unreachable — its final
distance is the `INT_MAX` sentinel, never a numeric distance. -/
theorem unreachable_reported (g : Graph) (startName dName : String) (s dIdx : Nat)
    (hInv : GraphInv g)
    (hcost : ∀ row ∈ g.adjList, ∀ e ∈ row, 0 ≤ e.2)
    (hs : lookupLoc g.locationToIndex startName = some s)
    (hd : lookupLoc g.locationToIndex dName = some dIdx)
    (hnr : ¬Reach g.adjList s dIdx) :
    ∃ report, optimizeDeliveryPlan g startName = some report ∧
      report[dIdx]? = some (dName, PlanEntry.unreachable) := by
  obtain ⟨hmap, hnd, hcnt, hadj, htgt, hsym⟩ := hInv
  have hdlt : dIdx < g.indexToLocation.length := by
    rw [hmap] at hd
    exact (lookupLoc_canonMap_some hd).1
  have hdget : g.indexToLocation[dIdx]? = some dName := by
    rw [hmap] at hd
    exact (lookupLoc_canonMap_some hd).2
  set dist0 := (List.replicate g.locationCount INTMAX).set s 0 with hdist0
  have hres : optimizeDeliveryPlan g startName =
      some ((List.range g.locationCount).map (fun i =>
        (g.indexToLocation.getD i "",
          if (dijkstraLoop g.adjList (dijkstraFuel g) dist0 [(0, s)]).getD i 0 = INTMAX
          then PlanEntry.unreachable
          else PlanEntry.eta
            ((dijkstraLoop g.adjList (dijkstraFuel g) dist0 [(0, s)]).getD i 0)
            ((dijkstraLoop g.adjList (dijkstraFuel g) dist0 [(0, s)]).getD i 0 * 5)))) := by
    unfold optimizeDeliveryPlan
    rw [hs]
  have hlen0 : dist0.length = g.adjList.length := by
    rw [hdist0, List.length_set, List.length_replicate, hcnt, hadj]
  have hB0 : DistBounded dist0 := by
    intro v x hvx
    rw [hdist0, List.getElem?_set] at hvx
    by_cases hsv : s = v
    · rw [if_pos hsv] at hvx
      by_cases hslen : s < (List.replicate g.locationCount INTMAX).length
      · rw [if_pos hslen] at hvx
        injection hvx with hvx
        rw [← hvx]
        unfold INTMAX
        omega
      · rw [if_neg hslen] at hvx
        exact Option.noConfusion hvx
    · rw [if_neg hsv] at hvx
      have := List.getElem?_mem hvx
      have hx : x = INTMAX := List.eq_of_mem_replicate this
      omega
  have hR0 : DistReach g.adjList s dist0 := by
    intro v x hvx hlt
    rw [hdist0, List.getElem?_set] at hvx
    by_cases hsv : s = v
    · exact hsv ▸ Reach.refl
    · rw [if_neg hsv] at hvx
      have := List.getElem?_mem hvx
      have hx : x = INTMAX := List.eq_of_mem_replicate this
      omega
  obtain ⟨hlenF, hBF, hRF⟩ := dijkstraLoop_inv g.adjList s hcost (dijkstraFuel g)
    dist0 [(0, s)] hlen0 hB0 hR0
  set distF := dijkstraLoop g.adjList (dijkstraFuel g) dist0 [(0, s)] with hdistF
  have hdIdxlen : dIdx < distF.length := by
    rw [hlenF, hadj]
    exact hdlt
  have hstored : distF[dIdx]? = some (distF.getD dIdx 0) := by
    rw [List.getD_eq_getElem?_getD, List.getElem?_eq_getElem hdIdxlen]
    rfl
  have hsentinel : distF.getD dIdx 0 = INTMAX := by
    have hub := hBF dIdx _ hstored
    by_contra hne
    exact hnr (hRF dIdx _ hstored (by omega))
  refine ⟨_, hres, ?_⟩
  rw [List.getElem?_map, List.getElem?_range (by rw [hcnt]; exact hdlt)]
  show some (g.indexToLocation.getD dIdx "",
    if distF.getD dIdx 0 = INTMAX then PlanEntry.unreachable
    else PlanEntry.eta (distF.getD dIdx 0) (distF.getD dIdx 0 * 5)) = _
  rw [if_pos hsentinel]
  have hnameD : g.indexToLocation.getD dIdx "" = dName := by
    rw [List.getD_eq_getElem?_getD, hdget]
    rfl
  rw [hnameD]

/-- Closed instance of `unreachable_reported`. -/
theorem unreachable_reported_witness :
    ∃ report, optimizeDeliveryPlan (runOps [Op.addLoc "A", Op.addLoc "D"]) "A" =
        some report ∧
      report[1]? = some ("D", PlanEntry.unreachable) :=
  unreachable_reported (runOps [Op.addLoc "A", Op.addLoc "D"]) "A" "D" 0 1
    (GraphInv_runOps [Op.addLoc "A", Op.addLoc "D"]) (by decide) (by decide) (by decide)
    (fun h => by
      rcases reach_cases h with h1 | h1
      · exact absurd h1 (by decide)
      · revert h1
        decide)

end DelPathOpt

namespace DelPathOpt

/-! ## BFS: one row scan -/

/-- The enqueue order the spec promises: a node's not-yet-visited neighbors
are enqueued in the order they appear in that node's adjacency list (marking
as it scans, so a duplicate target is enqueued once). -/
def newNeighborsSpec (vis : List Bool) : List (Nat × Int) → List Nat
  | [] => []
  | e :: rest =>
    if vis.getD e.1 false then newNeighborsSpec vis rest
    else e.1 :: newNeighborsSpec (vis.set e.1 true) rest

/-- The visited markers after scanning a row. -/
def markSpec (vis : List Bool) : List (Nat × Int) → List Bool
  | [] => vis
  | e :: rest =>
    if vis.getD e.1 false then markSpec vis rest
    else markSpec (vis.set e.1 true) rest

theorem getD_true_lt {l : List Bool} {v : Nat} (h : l.getD v false = true) :
    v < l.length := by
  by_contra hge
  rw [getD_out_of_range l v false (by omega)] at h
  exact Bool.noConfusion h

theorem bfsScanRow_eq (row : List (Nat × Int)) :
    ∀ (vis : List Bool) (q : List Nat),
      bfsScanRow row (vis, q) = (markSpec vis row, q ++ newNeighborsSpec vis row) := by
  induction row with
  | nil => intro vis q; simp [bfsScanRow, markSpec, newNeighborsSpec]
  | cons e rest ih =>
    intro vis q
    show (if vis.getD e.1 false then bfsScanRow rest (vis, q)
        else bfsScanRow rest (vis.set e.1 true, q ++ [e.1])) = _
    have hm : markSpec vis (e :: rest) =
        if vis.getD e.1 false then markSpec vis rest
        else markSpec (vis.set e.1 true) rest := rfl
    have hn : newNeighborsSpec vis (e :: rest) =
        if vis.getD e.1 false then newNeighborsSpec vis rest
        else e.1 :: newNeighborsSpec (vis.set e.1 true) rest := rfl
    rw [hm, hn]
    by_cases hv : vis.getD e.1 false = true
    · rw [if_pos hv, if_pos hv, if_pos hv, ih]
    · rw [if_neg (by simpa using hv), if_neg (by simpa using hv),
        if_neg (by simpa using hv), ih]
      simp

theorem markSpec_length (row : List (Nat × Int)) :
    ∀ (vis : List Bool), (markSpec vis row).length = vis.length := by
  induction row with
  | nil => intro vis; rfl
  | cons e rest ih =>
    intro vis
    unfold markSpec
    by_cases hv : vis.getD e.1 false = true
    · rw [if_pos hv, ih]
    · rw [if_neg (by simpa using hv), ih, List.length_set]

theorem markSpec_getD (row : List (Nat × Int)) :
    ∀ (vis : List Bool) (v : Nat),
      ((markSpec vis row).getD v false = true ↔
        vis.getD v false = true ∨ (v < vis.length ∧ ∃ e ∈ row, e.1 = v)) := by
  induction row with
  | nil =>
    intro vis v
    simp [markSpec]
  | cons e rest ih =>
    intro vis v
    unfold markSpec
    by_cases hv : vis.getD e.1 false = true
    · rw [if_pos hv, ih]
      constructor
      · intro h
        rcases h with h | ⟨h1, e2, h2, h3⟩
        · exact Or.inl h
        · exact Or.inr ⟨h1, e2, List.mem_cons_of_mem e h2, h3⟩
      · intro h
        rcases h with h | ⟨h1, e2, h2, h3⟩
        · exact Or.inl h
        · rcases List.mem_cons.mp h2 with h4 | h4
          · subst h4
            subst h3
            exact Or.inl hv
          · exact Or.inr ⟨h1, e2, h4, h3⟩
    · rw [if_neg (by simpa using hv), ih]
      have hlen : (vis.set e.1 true).length = vis.length := List.length_set vis e.1 true
      rw [hlen]
      constructor
      · intro h
        rcases h with h | ⟨h1, e2, h2, h3⟩
        · by_cases hev : e.1 = v
          · subst hev
            by_cases hel : e.1 < vis.length
            · exact Or.inr ⟨hel, e, List.mem_cons_self e rest, rfl⟩
            · rw [set_out_of_range vis e.1 true (by omega)] at h
              exact Or.inl h
          · rw [getD_set_ne _ _ _ _ _ hev] at h
            exact Or.inl h
        · exact Or.inr ⟨h1, e2, List.mem_cons_of_mem e h2, h3⟩
      · intro h
        rcases h with h | ⟨h1, e2, h2, h3⟩
        · by_cases hev : e.1 = v
          · subst hev
            have hlt : e.1 < vis.length := getD_true_lt h
            exact Or.inl (by rw [getD_set_self _ _ _ _ hlt])
          · rw [getD_set_ne _ _ _ _ _ hev]
            exact Or.inl h
        · rcases List.mem_cons.mp h2 with h4 | h4
          · subst h4
            subst h3
            exact Or.inl (by rw [getD_set_self _ _ _ _ (by omega)])
          · exact Or.inr ⟨h1, e2, h4, h3⟩


end DelPathOpt

namespace DelPathOpt

theorem newNeighborsSpec_props (row : List (Nat × Int)) :
    ∀ (vis : List Bool), (∀ e ∈ row, e.1 < vis.length) →
      (newNeighborsSpec vis row).Nodup ∧
      (∀ v : Nat, v ∈ newNeighborsSpec vis row ↔
        vis.getD v false = false ∧ ∃ e ∈ row, e.1 = v) := by
  induction row with
  | nil =>
    intro vis _
    refine ⟨List.nodup_nil, ?_⟩
    intro v
    simp [newNeighborsSpec]
  | cons e rest ih =>
    intro vis hb
    have hbrest : ∀ e2 ∈ rest, e2.1 < vis.length :=
      fun e2 he2 => hb e2 (List.mem_cons_of_mem e he2)
    have hstep : newNeighborsSpec vis (e :: rest) =
        if vis.getD e.1 false then newNeighborsSpec vis rest
        else e.1 :: newNeighborsSpec (vis.set e.1 true) rest := rfl
    rw [hstep]
    by_cases hv : vis.getD e.1 false = true
    · rw [if_pos hv]
      obtain ⟨hnd, hiff⟩ := ih vis hbrest
      refine ⟨hnd, ?_⟩
      intro v
      rw [hiff v]
      constructor
      · intro ⟨h1, e2, h2, h3⟩
        exact ⟨h1, e2, List.mem_cons_of_mem e h2, h3⟩
      · intro ⟨h1, e2, h2, h3⟩
        rcases List.mem_cons.mp h2 with h4 | h4
        · subst h4
          subst h3
          rw [hv] at h1
          exact Bool.noConfusion h1
        · exact ⟨h1, e2, h4, h3⟩
    · rw [if_neg (by simpa using hv)]
      have hlen : (vis.set e.1 true).length = vis.length := List.length_set vis e.1 true
      have hbrest2 : ∀ e2 ∈ rest, e2.1 < (vis.set e.1 true).length := by
        rw [hlen]
        exact hbrest
      obtain ⟨hnd, hiff⟩ := ih (vis.set e.1 true) hbrest2
      have he1 : e.1 < vis.length := hb e (List.mem_cons_self e rest)
      constructor
      · rw [List.nodup_cons]
        refine ⟨?_, hnd⟩
        intro hmem
        have := (hiff e.1).mp hmem
        rw [getD_set_self _ _ _ _ he1] at this
        exact Bool.noConfusion this.1
      · intro v
        constructor
        · intro hmem
          rcases List.mem_cons.mp hmem with h1 | h1
          · subst h1
            exact ⟨by simpa using hv, e, List.mem_cons_self e rest, rfl⟩
          · obtain ⟨h2, e2, h3, h4⟩ := (hiff v).mp h1
            have hvne : e.1 ≠ v := by
              intro heq
              rw [heq, getD_set_self _ _ _ _ (heq ▸ he1)] at h2
              exact Bool.noConfusion h2
            rw [getD_set_ne _ _ _ _ _ hvne] at h2
            exact ⟨h2, e2, List.mem_cons_of_mem e h3, h4⟩
        · intro ⟨h1, e2, h2, h3⟩
          by_cases hvv : e.1 = v
          · exact hvv ▸ List.mem_cons_self _ _
          · rcases List.mem_cons.mp h2 with h4 | h4
            · subst h4
              exact absurd h3 hvv
            · apply List.mem_cons_of_mem
              apply (hiff v).mpr
              rw [getD_set_ne _ _ _ _ _ hvv]
              exact ⟨h1, e2, h4, h3⟩

/-- Reachable nodes are valid handles (targets are bounded and so is the
source). -/
theorem reach_lt {adj : List (List (Nat × Int))} {n src v : Nat}
    (htgt : ∀ row ∈ adj, ∀ e ∈ row, e.1 < n) (hsrc : src < n)
    (h : Reach adj src v) : v < n := by
  induction h with
  | refl => exact hsrc
  | step hr hmem ih =>
    rename_i u w c
    rcases Nat.lt_or_ge u adj.length with hu | hu
    · have hrowmem : adj.getD u [] ∈ adj := by
        rw [List.getD_eq_getElem?_getD, List.getElem?_eq_getElem hu]
        exact List.getElem_mem _
      exact htgt _ hrowmem _ hmem
    · rw [getD_out_of_range adj u [] hu] at hmem
      exact absurd hmem (List.not_mem_nil _)

theorem nodup_bounded_length {l : List Nat} {n : Nat} (hnd : l.Nodup)
    (hb : ∀ x ∈ l, x < n) : l.length ≤ n := by
  have hsub : l ⊆ List.range n := fun x hx => List.mem_range.mpr (hb x hx)
  have := List.Subperm.length_le (hnd.subperm hsub)
  simpa using this

end DelPathOpt

namespace DelPathOpt

theorem bfsLoop_spec (adj : List (List (Nat × Int))) (src n : Nat)
    (hadjlen : adj.length = n)
    (htgt : ∀ row ∈ adj, ∀ e ∈ row, e.1 < n) :
    ∀ (fuel : Nat) (q : List Nat) (vis : List Bool) (out : List Nat),
      vis.length = n →
      (∀ v : Nat, vis.getD v false = true ↔ v ∈ out ∨ v ∈ q) →
      (out ++ q).Nodup →
      (∀ v ∈ out, ∀ e ∈ adj.getD v [], vis.getD e.1 false = true) →
      (∀ v : Nat, vis.getD v false = true → Reach adj src v) →
      n < fuel + out.length →
      (∀ v : Nat, vis.getD v false = true → v ∈ bfsLoop adj fuel q vis out) ∧
      (∀ v ∈ bfsLoop adj fuel q vis out, Reach adj src v) ∧
      (bfsLoop adj fuel q vis out).Nodup ∧
      (∀ v ∈ bfsLoop adj fuel q vis out, ∀ e ∈ adj.getD v [],
        e.1 ∈ bfsLoop adj fuel q vis out) := by
  intro fuel
  induction fuel with
  | zero =>
    intro q vis out hvislen hiff hnd hproc hreach hfuel
    exfalso
    have hout_nd : out.Nodup := (List.nodup_append.mp hnd).1
    have hb : ∀ x ∈ out, x < n := by
      intro x hx
      have h1 := (hiff x).mpr (Or.inl hx)
      have h2 := getD_true_lt h1
      omega
    have := nodup_bounded_length hout_nd hb
    omega
  | succ fuel ih =>
    intro q vis out hvislen hiff hnd hproc hreach hfuel
    cases q with
    | nil =>
      have hres : bfsLoop adj (fuel + 1) [] vis out = out := rfl
      rw [hres]
      refine ⟨?_, ?_, ?_, ?_⟩
      · intro v hv
        rcases (hiff v).mp hv with h | h
        · exact h
        · exact absurd h (List.not_mem_nil v)
      · intro v hv
        exact hreach v ((hiff v).mpr (Or.inl hv))
      · exact (List.nodup_append.mp hnd).1
      · intro v hv e he
        have h1 := hproc v hv e he
        rcases (hiff e.1).mp h1 with h | h
        · exact h
        · exact absurd h (List.not_mem_nil _)
    | cons curr q2 =>
      have hsr := bfsScanRow_eq (adj.getD curr []) vis q2
      have hres : bfsLoop adj (fuel + 1) (curr :: q2) vis out =
          bfsLoop adj fuel (q2 ++ newNeighborsSpec vis (adj.getD curr []))
            (markSpec vis (adj.getD curr [])) (out ++ [curr]) := by
        show bfsLoop adj fuel (bfsScanRow (adj.getD curr []) (vis, q2)).2
            (bfsScanRow (adj.getD curr []) (vis, q2)).1 (out ++ [curr]) = _
        rw [hsr]
      rw [hres]
      have hcurrvis : vis.getD curr false = true :=
        (hiff curr).mpr (Or.inr (List.mem_cons_self curr q2))
      have hcurrlt : curr < n := by
        have := getD_true_lt hcurrvis
        omega
      have hrowmem : adj.getD curr [] ∈ adj := by
        rw [List.getD_eq_getElem?_getD,
          List.getElem?_eq_getElem (by omega : curr < adj.length)]
        exact List.getElem_mem _
      have hbrow : ∀ e ∈ adj.getD curr [], e.1 < vis.length := by
        intro e he
        have := htgt _ hrowmem e he
        omega
      obtain ⟨hnews_nd, hnews_iff⟩ := newNeighborsSpec_props (adj.getD curr []) vis hbrow
      have hmark := markSpec_getD (adj.getD curr []) vis
      -- re-established invariant
      have hvislen2 : (markSpec vis (adj.getD curr [])).length = n := by
        rw [markSpec_length]
        exact hvislen
      have hiff2 : ∀ v : Nat, (markSpec vis (adj.getD curr [])).getD v false = true ↔
          v ∈ out ++ [curr] ∨ v ∈ q2 ++ newNeighborsSpec vis (adj.getD curr []) := by
        intro v
        rw [hmark v]
        constructor
        · intro h
          rcases h with h | ⟨h1, e, h2, h3⟩
          · rcases (hiff v).mp h with h4 | h4
            · exact Or.inl (List.mem_append_left _ h4)
            · rcases List.mem_cons.mp h4 with h5 | h5
              · exact Or.inl (List.mem_append_right _ (h5 ▸ List.mem_singleton_self _))
              · exact Or.inr (List.mem_append_left _ h5)
          · by_cases hv : vis.getD v false = true
            · rcases (hiff v).mp hv with h4 | h4
              · exact Or.inl (List.mem_append_left _ h4)
              · rcases List.mem_cons.mp h4 with h5 | h5
                · exact Or.inl (List.mem_append_right _ (h5 ▸ List.mem_singleton_self _))
                · exact Or.inr (List.mem_append_left _ h5)
            · have hv0 : vis.getD v false = false := by
                cases hb : vis.getD v false
                · rfl
                · exact absurd hb hv
              exact Or.inr (List.mem_append_right _
                ((hnews_iff v).mpr ⟨hv0, e, h2, h3⟩))
        · intro h
          rcases h with h | h
          · rcases List.mem_append.mp h with h1 | h1
            · exact Or.inl ((hiff v).mpr (Or.inl h1))
            · have hvc : v = curr := by simpa using h1
              exact Or.inl (hvc ▸ hcurrvis)
          · rcases List.mem_append.mp h with h1 | h1
            · exact Or.inl ((hiff v).mpr (Or.inr (List.mem_cons_of_mem curr h1)))
            · obtain ⟨h2, e, h3, h4⟩ := (hnews_iff v).mp h1
              refine Or.inr ⟨?_, e, h3, h4⟩
              have := hbrow e h3
              omega
      have hnd2 : ((out ++ [curr]) ++
          (q2 ++ newNeighborsSpec vis (adj.getD curr []))).Nodup := by
        have heq : (out ++ [curr]) ++ (q2 ++ newNeighborsSpec vis (adj.getD curr [])) =
            (out ++ curr :: q2) ++ newNeighborsSpec vis (adj.getD curr []) := by
          simp
        rw [heq, List.nodup_append]
        refine ⟨hnd, hnews_nd, ?_⟩
        intro x hx hx2
        obtain ⟨h2, _, _, _⟩ := (hnews_iff x).mp hx2
        have hxvis : vis.getD x false = true := by
          apply (hiff x).mpr
          rcases List.mem_append.mp hx with h3 | h3
          · exact Or.inl h3
          · exact Or.inr h3
        rw [hxvis] at h2
        exact Bool.noConfusion h2
      have hproc2 : ∀ v ∈ out ++ [curr], ∀ e ∈ adj.getD v [],
          (markSpec vis (adj.getD curr [])).getD e.1 false = true := by
        intro v hv e he
        rcases List.mem_append.mp hv with h1 | h1
        · apply (hmark e.1).mpr
          exact Or.inl (hproc v h1 e he)
        · have hvc : v = curr := by simpa using h1
          subst hvc
          apply (hmark e.1).mpr
          exact Or.inr ⟨hbrow e he, e, he, rfl⟩
      have hreach2 : ∀ v : Nat,
          (markSpec vis (adj.getD curr [])).getD v false = true →
            Reach adj src v := by
        intro v hv
        rcases (hmark v).mp hv with h | ⟨h1, e, h2, h3⟩
        · exact hreach v h
        · have hmem : (v, e.2) ∈ adj.getD curr [] := by
            rw [← h3]
            simpa using h2
          exact Reach.step (hreach curr hcurrvis) hmem
      have hfuel2 : n < fuel + (out ++ [curr]).length := by
        simp only [List.length_append, List.length_cons, List.length_nil]
        omega
      obtain ⟨ih1, ih2, ih3, ih4⟩ := ih (q2 ++ newNeighborsSpec vis (adj.getD curr []))
        (markSpec vis (adj.getD curr [])) (out ++ [curr])
        hvislen2 hiff2 hnd2 hproc2 hreach2 hfuel2
      refine ⟨?_, ih2, ih3, ih4⟩
      intro v hv
      apply ih1
      apply (hmark v).mpr
      exact Or.inl hv

end DelPathOpt

namespace DelPathOpt

/-- **C7.** BFS from a live source visits exactly the locations in the
connected component of the source, each exactly once (the printed name
sequence has no duplicates); a node's not-yet-visited neighbors are enqueued
in the order they appear in that node's adjacency list. -/
theorem bfs_traversal (g : Graph) (startName : String) (s : Nat)
    (hInv : GraphInv g) (hs : lookupLoc g.locationToIndex startName = some s) :
    ∃ order, simulateDelivery g startName = some order ∧
      order.Nodup ∧
      (∀ name, name ∈ order ↔ ∃ v, lookupLoc g.locationToIndex name = some v ∧
        Reach g.adjList s v) ∧
      (∀ (row : List (Nat × Int)) (vis : List Bool) (q : List Nat),
        (bfsScanRow row (vis, q)).2 = q ++ newNeighborsSpec vis row) := by
  obtain ⟨hmap, hnd, hcnt, hadj, htgt, hsym⟩ := hInv
  have hslt : s < g.indexToLocation.length := by
    rw [hmap] at hs
    exact (lookupLoc_canonMap_some hs).1
  set vis0 := (List.replicate g.locationCount false).set s true with hvis0
  have hres : simulateDelivery g startName =
      some ((bfsLoop g.adjList (g.locationCount + 1) [s] vis0 []).map
        (fun i => g.indexToLocation.getD i "")) := by
    unfold simulateDelivery
    rw [hs]
  have hvislen : vis0.length = g.indexToLocation.length := by
    rw [hvis0, List.length_set, List.length_replicate, hcnt]
  have hvis0_iff : ∀ v : Nat, vis0.getD v false = true ↔ v = s := by
    intro v
    rw [hvis0]
    constructor
    · intro h
      by_contra hvs
      rw [getD_set_ne _ _ _ _ _ (fun h2 => hvs h2.symm)] at h
      rcases Nat.lt_or_ge v (List.replicate g.locationCount false).length with h3 | h3
      · have : (List.replicate g.locationCount false).getD v false = false := by
          rw [List.getD_eq_getElem?_getD, List.getElem?_eq_getElem h3]
          simp [List.getElem_replicate]
        rw [this] at h
        exact Bool.noConfusion h
      · rw [getD_out_of_range _ _ _ h3] at h
        exact Bool.noConfusion h
    · intro h
      subst h
      rw [getD_set_self _ _ _ _ (by rw [List.length_replicate, hcnt]; exact hslt)]
  obtain ⟨c1, c2, c3, c4⟩ := bfsLoop_spec g.adjList s g.indexToLocation.length hadj htgt
    (g.locationCount + 1) [s] vis0 []
    hvislen
    (by
      intro v
      rw [hvis0_iff v]
      simp)
    (by simp)
    (by intro v hv; simp at hv)
    (by
      intro v hv
      rw [hvis0_iff v] at hv
      exact hv ▸ Reach.refl)
    (by rw [hcnt]; omega)
  set R := bfsLoop g.adjList (g.locationCount + 1) [s] vis0 [] with hR
  have hmemR : ∀ v : Nat, Reach g.adjList s v → v ∈ R := by
    intro v h
    induction h with
    | refl => exact c1 s ((hvis0_iff s).mpr rfl)
    | step hr hmem ih => exact c4 _ ih _ hmem
  have hRlt : ∀ v ∈ R, v < g.indexToLocation.length :=
    fun v hv => reach_lt htgt hslt (c2 v hv)
  refine ⟨_, hres, ?_, ?_, ?_⟩
  · -- no duplicate names
    apply (List.nodup_map_iff_inj_on c3).mpr
    intro x hx y hy hxy
    have hxlt : x < g.indexToLocation.length := hRlt x hx
    have hylt : y < g.indexToLocation.length := hRlt y hy
    have hxg : g.indexToLocation.getD x "" = g.indexToLocation[x] := by
      rw [List.getD_eq_getElem?_getD, List.getElem?_eq_getElem hxlt]
      rfl
    have hyg : g.indexToLocation.getD y "" = g.indexToLocation[y] := by
      rw [List.getD_eq_getElem?_getD, List.getElem?_eq_getElem hylt]
      rfl
    rw [hxg, hyg] at hxy
    exact (List.Nodup.getElem_inj_iff hnd).mp hxy
  · intro name
    constructor
    · intro hname
      obtain ⟨v, hv, hveq⟩ := List.mem_map.mp hname
      have hvlt : v < g.indexToLocation.length := hRlt v hv
      have hget : g.indexToLocation[v]? = some name := by
        rw [List.getElem?_eq_getElem hvlt]
        rw [← hveq, List.getD_eq_getElem?_getD, List.getElem?_eq_getElem hvlt]
        rfl
      refine ⟨v, ?_, c2 v hv⟩
      rw [hmap]
      exact lookupLoc_canonMap_of_get hnd hget
    · intro ⟨v, hlook, hreachv⟩
      rw [hmap] at hlook
      obtain ⟨hvlt, hvget⟩ := lookupLoc_canonMap_some hlook
      apply List.mem_map.mpr
      refine ⟨v, hmemR v hreachv, ?_⟩
      rw [List.getD_eq_getElem?_getD, hvget]
      rfl
  · intro row vis q
    rw [bfsScanRow_eq]

/-- Closed instance of `bfs_traversal`. -/
theorem bfs_traversal_witness :
    ∃ order, simulateDelivery exampleGraph "A" = some order ∧
      order.Nodup ∧
      (∀ name, name ∈ order ↔ ∃ v, lookupLoc exampleGraph.locationToIndex name = some v ∧
        Reach exampleGraph.adjList 0 v) ∧
      (∀ (row : List (Nat × Int)) (vis : List Bool) (q : List Nat),
        (bfsScanRow row (vis, q)).2 = q ++ newNeighborsSpec vis row) :=
  bfs_traversal exampleGraph "A" 0 (by decide) (by decide)

end DelPathOpt
